import Mathlib

set_option autoImplicit false

/-!
Shallow embedding of the MelPoW proof-of-sequential-work core of this
repository (`src/melpow/mod.rs` and `src/melpow/node.rs`).

Byte strings are `List Nat` with entries below 256.  `u64`/`usize`
arithmetic appears as `Nat` arithmetic; every shift amount reachable from
the public surface is at most 63 once the guards of the source are in
place, so no wrap-around is lost.  Fallible or panicking operations return
`Option`, with `none` modelling a panic of the checked (debug) Rust build
(overflowing shift or subtraction, indexing a map at a missing key).
-/

abbrev Bytes := List Nat

/-- Modelled from the spec: the source's `melpow/hash.rs` module is not part
of the repository snapshot; spec section 4.1 only fixes the interface and says
"Fix a collision-resistant 32-byte hash function `H` [...] any fixed choice is
acceptable so long as prover and verifier agree exactly".  We fix one concrete
deterministic 32-byte function. -/
def hashH (l : Bytes) : Bytes :=
  let s := l.foldl (fun a b => (a * 1103515245 + b % 256 + 13) % 2305843009213693951) 104729
  (List.range 32).map (fun i => (s / 2 ^ (2 * (i % 16)) + 37 * i) % 256)

/-- Modelled from the spec: `Hkey(data, key) = H(key ++ data)` truncated to 32
bytes (spec section 4.1); the source calls this `hash::bts_key(data, key)`. -/
def bts_key (data key : Bytes) : Bytes := hashH (key ++ data)

/-- Little-endian 8-byte encoding of a 64-bit length, used by the
accumulator's chunk framing (spec section 4.1). -/
def leBytes8 (n : Nat) : Bytes :=
  [n % 256, n / 2 ^ 8 % 256, n / 2 ^ 16 % 256, n / 2 ^ 24 % 256,
   n / 2 ^ 32 % 256, n / 2 ^ 40 % 256, n / 2 ^ 48 % 256, n / 2 ^ 56 % 256]

/-- Modelled from the spec: the streaming accumulator of spec section 4.1
(`hash::Accumulator` in the source).  Each `add` contributes a
length-prefixed chunk `chunk_length_le_u64 ++ chunk` to the internal state,
and `hash` finalises the state with `H`. -/
structure Accumulator where
  data : Bytes
deriving DecidableEq, Repr

/-- `Accumulator::new(key)` (spec section 4.1). -/
def Accumulator.new (key : Bytes) : Accumulator := ⟨key⟩

/-- `Accumulator::add` (spec section 4.1): append one length-prefixed chunk. -/
def Accumulator.add (a : Accumulator) (chunk : Bytes) : Accumulator :=
  ⟨a.data ++ leBytes8 chunk.length ++ chunk⟩

/-- `Accumulator::hash` (spec section 4.1): finalise to 32 bytes. -/
def Accumulator.hash (a : Accumulator) : Bytes := hashH a.data

/-- Fold `Accumulator.add` over a list of labels (parent labels are added in
enumeration order). -/
def accAddList (a : Accumulator) : List Bytes → Accumulator
  | [] => a
  | l :: ls => accAddList (a.add l) ls

/-- A vertex of the labeling DAG (`node.rs`, `struct Node`): `bv` packs a bit
string of length `len` into the low bits of a 64-bit word. -/
structure Node where
  bv : Nat
  len : Nat
deriving DecidableEq, Repr

/-- `Node::new_zero()`: the root `ε`. -/
def Node.new_zero : Node := ⟨0, 0⟩

/-- `Node::new(bv, len)`. -/
def Node.new (bv len : Nat) : Node := ⟨bv, len⟩

/-- `Node::take(n)`: keep the low `n` bits (`bv &= (1 << n) - 1`). -/
def Node.take (nd : Node) (n : Nat) : Node :=
  ⟨nd.bv &&& ((1 <<< n) - 1), n⟩

/-- `Node::append(b)`: `bv |= b << len; len += 1`. -/
def Node.append (nd : Node) (b : Nat) : Node :=
  ⟨nd.bv ||| (b <<< nd.len), nd.len + 1⟩

/-- `Node::get_bit(n)`: `bv >> n & 1`. -/
def Node.get_bit (nd : Node) (n : Nat) : Nat := nd.bv >>> n &&& 1

/-- `Node::get_parents(n)` (`node.rs` lines 43-59): an internal node's
parents are its two tree children; a leaf's parents are the ancestor
siblings `take(i).append(0)` at each set bit `i`, pushed in increasing
bit-index order. -/
def Node.get_parents (nd : Node) (n : Nat) : List Node :=
  if nd.len = n then
    (List.range n).foldl
      (fun parents index =>
        if nd.bv >>> index &&& 1 ≠ 0 then parents ++ [(nd.take index).append 0] else parents)
      []
  else
    [nd.append 0, nd.append 1]

/-- `Node::uniqid()`: `(len << 56) | bv`.  (For every node the source builds,
`len < 256` and `bv < 2^64`, so the `Nat` value coincides with the `u64`.) -/
def Node.uniqid (nd : Node) : Nat := (nd.len <<< 56) ||| nd.bv

/-- Big-endian 8-byte encoding of a 64-bit value (`u64::to_be_bytes`). -/
def beBytes8 (u : Nat) : Bytes :=
  [u / 2 ^ 56 % 256, u / 2 ^ 48 % 256, u / 2 ^ 40 % 256, u / 2 ^ 32 % 256,
   u / 2 ^ 24 % 256, u / 2 ^ 16 % 256, u / 2 ^ 8 % 256, u % 256]

/-- Big-endian `u64::from_be_bytes` on a list of bytes. -/
def beU64val (l : Bytes) : Nat := l.foldl (fun acc b => acc * 256 + b) 0

/-- Little-endian `u64::from_le_bytes` on a list of bytes. -/
def leU64val (l : Bytes) : Nat := l.foldr (fun b acc => acc * 256 + b) 0

/-- `Node::to_bytes()`: the big-endian bytes of `uniqid`. -/
def Node.to_bytes (nd : Node) : Bytes := beBytes8 nd.uniqid

/-- `Node::from_bytes` (`node.rs` lines 69-76): `try_into` an 8-byte array
(fails on any other length), then split the `u64`: high 8 bits are `len`,
low 56 bits (`uniqid << 8 >> 8` on `u64`) are `bv`. -/
def Node.from_bytes (bts : Bytes) : Option Node :=
  if bts.length = 8 then
    let uniqid := beU64val bts
    some ⟨((uniqid <<< 8) % 2 ^ 64) >>> 8, uniqid >>> 56⟩
  else
    none

/-- Association-list model of the `FxHashMap`s of the source.  Keys are kept
unique (`insertN` replaces in place), so the list is one fixed iteration
order of the map. -/
abbrev NMap := List (Node × Bytes)

/-- `HashMap::get`. -/
def lookupN : NMap → Node → Option Bytes
  | [], _ => none
  | (k, v) :: rest, nd => if k = nd then some v else lookupN rest nd

/-- `HashMap::contains_key`. -/
def containsN (m : NMap) (nd : Node) : Bool := (lookupN m nd).isSome

/-- `HashMap::insert`: replace the binding if the key is present, otherwise
add it. -/
def insertN : NMap → Node → Bytes → NMap
  | [], k, v => [(k, v)]
  | (k0, v0) :: rest, k, v =>
    if k0 = k then (k, v) :: rest else (k0, v0) :: insertN rest k v

/-- `HashMap::remove`. -/
def eraseN : NMap → Node → NMap
  | [], _ => []
  | (k0, v0) :: rest, k => if k0 = k then rest else (k0, v0) :: eraseN rest k

/-- The key list of a map (or of an emitted `(node, label)` stream). -/
def keysOf (m : NMap) : List Node := m.map Prod.fst

/-- Look up every node of a list in a map; `none` as soon as one is missing.
This models the panicking `ell[parent]` indexing loop of
`calc_labels_helper` (`node.rs` lines 125-127). -/
def lookAll (ell : NMap) : List Node → Option (List Bytes)
  | [] => some []
  | p :: ps =>
    match lookupN ell p with
    | none => none
    | some l =>
      match lookAll ell ps with
      | none => none
      | some ls => some (l :: ls)

/-- `calc_labels_helper` (`node.rs` lines 113-148).  The sink `f` is
materialised as the post-order stream of `(node, label)` pairs (second
component); the auxiliary map `ell` is threaded and returned (third
component).  `fuel` only bounds the recursion depth: the entry point passes
`fuel = n`, and every recursive call is on a node one level deeper, exactly
as the Rust recursion. -/
def clh (chi : Bytes) (n : Nat) : Nat → Node → NMap → Option (Bytes × NMap × NMap)
  | fuel, nd, ell =>
    if nd.len = n then
      match lookAll ell (nd.get_parents n) with
      | none => none
      | some labs =>
        let lab := (accAddList ((Accumulator.new chi).add nd.to_bytes) labs).hash
        some (lab, [(nd, lab)], ell)
    else
      match fuel with
      | 0 => none
      | fuel' + 1 =>
        match clh chi n fuel' (nd.append 0) ell with
        | none => none
        | some (l0, s0, ell0) =>
          match clh chi n fuel' (nd.append 1) (insertN ell0 (nd.append 0) l0) with
          | none => none
          | some (l1, s1, ell2) =>
            let lab := ((((Accumulator.new chi).add nd.to_bytes).add l0).add l1).hash
            some (lab, s0 ++ s1 ++ [(nd, lab)], eraseN ell2 (nd.append 0))

/-- `calc_labels` (`node.rs` lines 109-111): run the helper from the root
with an empty auxiliary map. -/
def calc_labels (chi : Bytes) (n : Nat) : Option (Bytes × NMap × NMap) :=
  clh chi n n Node.new_zero []

/-- `PROOF_CERTAINTY` (`mod.rs` line 14). -/
def PROOF_CERTAINTY : Nat := 200

/-- ASCII decimal digits, most significant first (enough fuel for any index
the source ever formats). -/
def decDigits : Nat → Nat → Bytes
  | 0, _ => []
  | _ + 1, 0 => []
  | fuel + 1, n => decDigits fuel (n / 10) ++ [48 + n % 10]

/-- ASCII decimal rendering of a natural number (`format!("{}", i)`). -/
def decAscii (n : Nat) : Bytes := if n = 0 then [48] else decDigits 24 n

/-- The bytes of `b"chi"`. -/
def chiKey : Bytes := [99, 104, 105]

/-- The bytes of `format!("gamma-{}", i)`. -/
def gammaKey (i : Nat) : Bytes := [103, 97, 109, 109, 97, 45] ++ decAscii i

/-- `u64::reverse_bits` by structural recursion over the 64 bit positions:
bit `i` of the input becomes bit `63 - i` of `revAux 64`. -/
def revAux : Nat → Nat → Nat
  | 0, _ => 0
  | k + 1, g => g % 2 * 2 ^ k + revAux k (g / 2)

/-- `gen_gammas` (`mod.rs` lines 143-154).  The guard models the checked
arithmetic of the source: `g_int >> (64 - difficulty)` overflows the shift
when `difficulty = 0`, and `64 - difficulty` underflows `usize` when
`difficulty > 64`; both panic, i.e. `none`. -/
def gen_gammas (puzzle : Bytes) (difficulty : Nat) : Option (List Node) :=
  if difficulty = 0 ∨ 64 < difficulty then none
  else
    some ((List.range PROOF_CERTAINTY).map (fun index =>
      let g_seed := bts_key puzzle (gammaKey index)
      let g_int := leU64val (g_seed.take 8)
      let shift := 64 - difficulty
      Node.new (revAux 64 (g_int / 2 ^ shift * 2 ^ shift)) difficulty))

/-- `gamma_to_path` (`mod.rs` lines 156-161): the authentication-path
siblings `take(i).append(1 - get_bit(i))` for `i` below `gamma.len`. -/
def gamma_to_path (gamma : Node) : List Node :=
  (List.range gamma.len).map (fun index => (gamma.take index).append (1 - gamma.get_bit index))

/-- `Proof::generate` (`mod.rs` lines 22-42): pre-register empty placeholder
labels for every challenge and every node on its authentication path, then
stream `calc_labels` through the sink that overwrites exactly the
pre-registered keys and the root. -/
def Proof.generate (puzzle : Bytes) (difficulty : Nat) : Option NMap :=
  let chi := bts_key puzzle chiKey
  match gen_gammas puzzle difficulty with
  | none => none
  | some gammas =>
    let pm0 := gammas.foldl
      (fun m gamma =>
        insertN ((gamma_to_path gamma).foldl (fun m2 pn => insertN m2 pn []) m) gamma [])
      []
    match calc_labels chi difficulty with
    | none => none
    | some r =>
      some (r.2.1.foldl
        (fun m nl =>
          if (lookupN m nl.1).isSome || nl.1.len == 0 then insertN m nl.1 nl.2 else m)
        pm0)

/-- The verifier's parent loop (`mod.rs` lines 68-81): `try_for_each` adds
the stored label of each parent to the hasher and stops at the first
missing parent, recording failure in the output flag. -/
def addParents (pf : NMap) (acc : Accumulator) : List Node → Bool × Accumulator
  | [] => (true, acc)
  | p :: ps =>
    match lookupN pf p with
    | none => (false, acc)
    | some parlab => addParents pf (acc.add parlab) ps

/-- The verifier's merkle-like fold (`mod.rs` lines 88-96), iterated over the
given index list (the source iterates `(0..difficulty).rev()`).  Indexing
`temp_map` at a missing key panics, i.e. `none`. -/
def pathFold (chi : Bytes) (gamma : Node) : List Nat → NMap → Option NMap
  | [], tm => some tm
  | index :: rest, tm =>
    let g_l := gamma.take index
    match lookupN tm (g_l.append 0) with
    | none => none
    | some a =>
      match lookupN tm (g_l.append 1) with
      | none => none
      | some b =>
        pathFold chi gamma rest
          (insertN tm g_l ((((Accumulator.new chi).add g_l.to_bytes).add a).add b).hash)

/-- One challenge of the verifier loop (`mod.rs` lines 58-103), threading the
output flag and the shared working map. -/
def verifyGamma (pf : NMap) (chi : Bytes) (difficulty : Nat) (phi : Bytes)
    (st : Bool × NMap) (gamma : Node) : Option (Bool × NMap) :=
  match lookupN pf gamma with
  | none => some (false, st.2)
  | some label =>
    let res := addParents pf ((Accumulator.new chi).add gamma.to_bytes) (gamma.get_parents difficulty)
    let out1 := st.1 && res.1 && (res.2.hash == label)
    match pathFold chi gamma ((List.range difficulty).reverse) st.2 with
    | none => none
    | some tm2 =>
      match lookupN pf Node.new_zero with
      | none => none
      | some root0 => some (out1 && (phi == root0), tm2)

/-- The verifier loop over all challenges. -/
def verifyLoop (pf : NMap) (chi : Bytes) (difficulty : Nat) (phi : Bytes) :
    List Node → Bool × NMap → Option (Bool × NMap)
  | [], st => some st
  | g :: gs, st =>
    match verifyGamma pf chi difficulty phi st g with
    | none => none
    | some st2 => verifyLoop pf chi difficulty phi gs st2

/-- `Proof::verify` (`mod.rs` lines 46-107).  Reject difficulties above 100,
regenerate the challenges, read the root label `phi = self.0[ε]` (a panic if
the root is absent), and run the challenge loop on a working copy of the
proof map. -/
def Proof.verify (pf : NMap) (puzzle : Bytes) (difficulty : Nat) : Option Bool :=
  if 100 < difficulty then some false
  else
    let chi := bts_key puzzle chiKey
    match gen_gammas puzzle difficulty with
    | none => none
    | some gammas =>
      match lookupN pf Node.new_zero with
      | none => none
      | some phi =>
        match verifyLoop pf chi difficulty phi gammas (true, pf) with
        | none => none
        | some st => some st.1

/-- `Proof::to_bytes` (`mod.rs` lines 110-121): concatenate 40-byte records
`node.to_bytes() ++ label` in map iteration order; the source asserts that
every label is exactly 32 bytes (`none` models the panicking assert). -/
def Proof.to_bytes : NMap → Option Bytes
  | [] => some []
  | (k, v) :: rest =>
    if v.length = 32 then
      match Proof.to_bytes rest with
      | none => none
      | some tl => some (k.to_bytes ++ v ++ tl)
    else none

/-- The record loop of `Proof::from_bytes` (`mod.rs` lines 131-136); the fuel
is an upper bound on the number of records, the caller passes the byte
length. -/
def fromBytesLoop : Nat → Bytes → NMap → Option NMap
  | _, [], m => some m
  | 0, _ :: _, _ => none
  | fuel + 1, bts, m =>
    match Node.from_bytes (bts.take 8) with
    | none => none
    | some nd => fromBytesLoop fuel (bts.drop 40) (insertN m nd ((bts.drop 8).take 32))

/-- `Proof::from_bytes` (`mod.rs` lines 124-140): reject lengths that are not
a multiple of 40, otherwise parse the records into a map. -/
def Proof.from_bytes (bts : Bytes) : Option NMap :=
  if bts.length % 40 ≠ 0 then none
  else fromBytesLoop bts.length bts []

/-- Population count of the low 64 bits, as the spec's `popcount` on the
`u64` field `bv`. -/
def popcount (g : Nat) : Nat := (List.range 64).countP (fun i => g / 2 ^ i % 2 = 1)

/-- The keys the auxiliary map `ell` is expected to hold when the labeling
recursion is at node `nd`: the pinned left sibling `take(i).append(0)` for
every position `i` where the path went right (spec section 4.2's memory
invariant). -/
def ctxKeys (nd : Node) : List Node :=
  ((List.range nd.len).filter (fun i => nd.bv / 2 ^ i % 2 = 1)).map
    (fun i => (nd.take i).append 0)

/-!
## Arithmetic toolkit

The source manipulates bit strings with `&`, `|`, `<<`, `>>`.  The lemmas
below re-express those operations in `/ % ^` language; `x / 2 ^ i % 2` is
"bit `i` of `x`" throughout.
-/

theorem two_pow_pos (n : Nat) : 0 < 2 ^ n := Nat.pos_pow_of_pos n (by decide)

theorem bit_add_low (a n b i : Nat) (hi : i < n) :
    (a * 2 ^ n + b) / 2 ^ i % 2 = b / 2 ^ i % 2 := by
  have h1 : a * 2 ^ n + b = b + a * 2 ^ (n - i) * 2 ^ i := by
    rw [Nat.mul_assoc, ← Nat.pow_add]
    have : n - i + i = n := Nat.sub_add_cancel (Nat.le_of_lt hi)
    rw [this, Nat.add_comm]
  rw [h1, Nat.add_mul_div_right _ _ (two_pow_pos i)]
  have h2 : n - i = (n - i - 1) + 1 := (Nat.sub_add_cancel (by omega)).symm
  rw [h2, Nat.pow_succ]
  rw [← Nat.mul_assoc]
  rw [Nat.add_mul_mod_self_right]

theorem bit_add_high (a n b i : Nat) (hb : b < 2 ^ n) (hi : n ≤ i) :
    (a * 2 ^ n + b) / 2 ^ i % 2 = a / 2 ^ (i - n) % 2 := by
  have h1 : (2 : Nat) ^ i = 2 ^ n * 2 ^ (i - n) := by
    rw [← Nat.pow_add]
    congr 1
    omega
  rw [h1, ← Nat.div_div_eq_div_mul]
  have h2 : (a * 2 ^ n + b) / 2 ^ n = a := by
    rw [Nat.add_comm, Nat.add_mul_div_right _ _ (two_pow_pos n), Nat.div_eq_of_lt hb]
    omega
  rw [h2]

theorem testBit_eq_bit (x i : Nat) : x.testBit i = decide (x / 2 ^ i % 2 = 1) :=
  Nat.testBit_to_div_mod

/-- `(a << n) | b = a * 2^n + b` whenever `b` fits in `n` bits. -/
theorem shiftLeft_lor_eq_add (a n b : Nat) (hb : b < 2 ^ n) :
    (a <<< n) ||| b = a * 2 ^ n + b := by
  apply Nat.eq_of_testBit_eq
  intro i
  rw [Nat.testBit_lor, Nat.testBit_shiftLeft]
  by_cases hi : i < n
  · have hge : decide (i ≥ n) = false := by simp; omega
    rw [hge, Bool.false_and, Bool.false_or]
    rw [testBit_eq_bit, testBit_eq_bit, bit_add_low a n b i hi]
  · have hge : decide (i ≥ n) = true := by simp; omega
    rw [hge, Bool.true_and]
    have hbi : b.testBit i = false := by
      apply Nat.testBit_lt_two_pow
      exact Nat.lt_of_lt_of_le hb (Nat.pow_le_pow_right (by decide) (by omega))
    rw [hbi, Bool.or_false]
    rw [testBit_eq_bit, testBit_eq_bit, bit_add_high a n b i hb (by omega)]

/-- Bit `i` of `x % 2^m`: the low bits of `x`, zero from position `m` on. -/
theorem bit_mod_pow (x m i : Nat) :
    x % 2 ^ m / 2 ^ i % 2 = if i < m then x / 2 ^ i % 2 else 0 := by
  by_cases hi : i < m
  · simp only [hi, if_true]
    have h1 : (2 : Nat) ^ m = 2 ^ i * 2 ^ (m - i) := by
      rw [← Nat.pow_add]
      congr 1
      omega
    rw [h1, Nat.mod_mul_right_div_self]
    have h2 : (2 : Nat) ∣ 2 ^ (m - i) := dvd_pow_self 2 (by omega)
    rw [Nat.mod_mod_of_dvd _ h2]
  · simp only [hi, if_false]
    have : x % 2 ^ m < 2 ^ i :=
      Nat.lt_of_lt_of_le (Nat.mod_lt _ (two_pow_pos m))
        (Nat.pow_le_pow_right (by decide) (by omega))
    rw [Nat.div_eq_of_lt this]

/-- Splitting off the top bit of a `(m+1)`-bit remainder. -/
theorem mod_pow_split (x m : Nat) :
    x % 2 ^ (m + 1) = x % 2 ^ m + x / 2 ^ m % 2 * 2 ^ m := by
  have h : x % 2 ^ (m + 1) = x % 2 ^ m + 2 ^ m * (x / 2 ^ m % 2) := Nat.mod_pow_succ
  rw [h, Nat.mul_comm]


/-! ## Node lemmas -/

theorem Node.eq_of (a b : Node) (h1 : a.bv = b.bv) (h2 : a.len = b.len) : a = b := by
  cases a
  cases b
  simp only at h1 h2
  subst h1
  subst h2
  rfl

theorem Node.take_bv (nd : Node) (n : Nat) : (nd.take n).bv = nd.bv % 2 ^ n := by
  show nd.bv &&& ((1 <<< n) - 1) = _
  rw [Nat.shiftLeft_eq, Nat.one_mul, Nat.and_pow_two_sub_one_eq_mod]

theorem Node.take_len (nd : Node) (n : Nat) : (nd.take n).len = n := rfl

theorem Node.take_bv_lt (nd : Node) (n : Nat) : (nd.take n).bv < 2 ^ n := by
  rw [Node.take_bv]
  exact Nat.mod_lt _ (two_pow_pos n)

theorem Node.append_len (nd : Node) (b : Nat) : (nd.append b).len = nd.len + 1 := rfl

theorem Node.append_bv (nd : Node) (b : Nat) (h : nd.bv < 2 ^ nd.len) :
    (nd.append b).bv = nd.bv + b * 2 ^ nd.len := by
  show nd.bv ||| (b <<< nd.len) = _
  rw [Nat.lor_comm, shiftLeft_lor_eq_add b nd.len nd.bv h, Nat.add_comm]

theorem Node.append_bv_lt (nd : Node) (b : Nat) (h : nd.bv < 2 ^ nd.len) (hb : b ≤ 1) :
    (nd.append b).bv < 2 ^ (nd.len + 1) := by
  rw [Node.append_bv nd b h, Nat.pow_succ]
  have : b * 2 ^ nd.len ≤ 2 ^ nd.len := by
    calc b * 2 ^ nd.len ≤ 1 * 2 ^ nd.len := Nat.mul_le_mul_right _ hb
    _ = 2 ^ nd.len := Nat.one_mul _
  omega

theorem Node.get_bit_eq (nd : Node) (i : Nat) : nd.get_bit i = nd.bv / 2 ^ i % 2 := by
  show nd.bv >>> i &&& 1 = _
  rw [Nat.shiftRight_eq_div_pow, Nat.and_one_is_mod]

theorem Node.append_bit (nd : Node) (b i : Nat) (hw : nd.bv < 2 ^ nd.len) (hb : b ≤ 1) :
    (nd.append b).bv / 2 ^ i % 2 =
      if i < nd.len then nd.bv / 2 ^ i % 2 else if i = nd.len then b else 0 := by
  rw [Node.append_bv nd b hw]
  by_cases hi : i < nd.len
  · rw [if_pos hi, Nat.add_comm, bit_add_low b nd.len nd.bv i hi]
  · rw [if_neg hi, Nat.add_comm, bit_add_high b nd.len nd.bv i hw (by omega)]
    by_cases he : i = nd.len
    · rw [if_pos he, he, Nat.sub_self, Nat.pow_zero, Nat.div_one]
      exact Nat.mod_eq_of_lt (by omega)
    · rw [if_neg he]
      have : b / 2 ^ (i - nd.len) = 0 := by
        apply Nat.div_eq_of_lt
        have h1 : (2 : Nat) ^ 1 ≤ 2 ^ (i - nd.len) := Nat.pow_le_pow_right (by decide) (by omega)
        omega
      rw [this]

theorem Node.take_append_bit (nd : Node) (i : Nat) :
    (nd.take i).append (nd.bv / 2 ^ i % 2) = nd.take (i + 1) := by
  apply Node.eq_of
  · rw [Node.append_bv _ _ (nd.take_bv_lt i), Node.take_bv, Node.take_bv, Node.take_len,
      mod_pow_split]
  · rfl

theorem Node.take_self (nd : Node) (hw : nd.bv < 2 ^ nd.len) : nd.take nd.len = nd := by
  apply Node.eq_of
  · rw [Node.take_bv]
    exact Nat.mod_eq_of_lt hw
  · rfl

theorem Node.take_of_append (nd : Node) (b i : Nat) (hw : nd.bv < 2 ^ nd.len)
    (hi : i ≤ nd.len) : (nd.append b).take i = nd.take i := by
  apply Node.eq_of
  · rw [Node.take_bv, Node.take_bv, Node.append_bv nd b hw]
    have h1 : b * 2 ^ nd.len = b * 2 ^ (nd.len - i) * 2 ^ i := by
      rw [Nat.mul_assoc, ← Nat.pow_add]
      congr 2
      omega
    rw [h1, Nat.add_mul_mod_self_right]
  · rfl

theorem Node.take_take (nd : Node) (m i : Nat) (hi : i ≤ m) :
    (nd.take m).take i = nd.take i := by
  apply Node.eq_of
  · rw [Node.take_bv, Node.take_bv, Node.take_bv]
    exact Nat.mod_mod_of_dvd _ (pow_dvd_pow 2 hi)
  · rfl

theorem Node.append_zero_ne_append_one (nd : Node) (hw : nd.bv < 2 ^ nd.len) :
    nd.append 0 ≠ nd.append 1 := by
  intro h
  have h1 : (nd.append 0).bv = (nd.append 1).bv := by rw [h]
  rw [Node.append_bv nd 0 hw, Node.append_bv nd 1 hw] at h1
  have : 0 < 2 ^ nd.len := two_pow_pos nd.len
  omega

theorem get_parents_foldl (nd : Node) :
    ∀ (l : List Nat) (acc : List Node),
      l.foldl
        (fun parents index =>
          if nd.bv >>> index &&& 1 ≠ 0 then parents ++ [(nd.take index).append 0] else parents)
        acc
      = acc ++ (l.filter (fun i => nd.get_bit i = 1)).map (fun i => (nd.take i).append 0)
  | [], acc => by simp
  | i :: l, acc => by
    have hb : nd.get_bit i = nd.bv >>> i &&& 1 := rfl
    have h2 : nd.bv >>> i &&& 1 < 2 := by
      rw [Nat.and_one_is_mod]
      exact Nat.mod_lt _ (by decide)
    by_cases h : nd.bv >>> i &&& 1 ≠ 0
    · have hbit : nd.get_bit i = 1 := by rw [hb]; omega
      simp only [List.foldl_cons, if_pos h, List.filter_cons, hbit]
      rw [get_parents_foldl nd l (acc ++ [(nd.take i).append 0])]
      simp
    · have hbit : ¬ (nd.get_bit i = 1) := by rw [hb]; omega
      simp only [List.foldl_cons, if_neg h, List.filter_cons]
      rw [get_parents_foldl nd l acc]
      simp [hbit]

theorem Node.get_parents_leaf (nd : Node) (n : Nat) (h : nd.len = n) :
    nd.get_parents n =
      ((List.range n).filter (fun i => nd.get_bit i = 1)).map
        (fun i => (nd.take i).append 0) := by
  unfold Node.get_parents
  rw [if_pos h, get_parents_foldl nd (List.range n) []]
  simp

theorem Node.get_parents_internal (nd : Node) (n : Nat) (h : nd.len ≠ n) :
    nd.get_parents n = [nd.append 0, nd.append 1] := by
  unfold Node.get_parents
  rw [if_neg h]

/-! ## Association-list map lemmas -/

theorem lookupN_insertN_self : ∀ (m : NMap) (k : Node) (v : Bytes),
    lookupN (insertN m k v) k = some v
  | [], k, v => by simp [insertN, lookupN]
  | (k0, v0) :: rest, k, v => by
    by_cases h : k0 = k
    · simp [insertN, h, lookupN]
    · simp only [insertN, if_neg h, lookupN]
      exact lookupN_insertN_self rest k v

theorem lookupN_insertN_ne : ∀ (m : NMap) (k : Node) (v : Bytes) (k2 : Node), k ≠ k2 →
    lookupN (insertN m k v) k2 = lookupN m k2
  | [], k, v, k2, h => by simp [insertN, lookupN, h]
  | (k0, v0) :: rest, k, v, k2, h => by
    by_cases h0 : k0 = k
    · subst h0
      simp [insertN, lookupN, h]
    · simp only [insertN, if_neg h0, lookupN]
      by_cases h2 : k0 = k2
      · simp [h2]
      · rw [if_neg h2, if_neg h2]
        exact lookupN_insertN_ne rest k v k2 h

theorem insertN_not_mem : ∀ (m : NMap) (k : Node) (v : Bytes), containsN m k = false →
    insertN m k v = m ++ [(k, v)]
  | [], _, _, _ => rfl
  | (k0, v0) :: rest, k, v, h => by
    have h0 : k0 ≠ k := by
      intro he
      simp [containsN, lookupN, he] at h
    simp only [insertN, if_neg h0, List.cons_append, List.cons.injEq, true_and]
    apply insertN_not_mem rest k v
    simpa [containsN, lookupN, if_neg h0] using h

theorem eraseN_append_not_mem : ∀ (m : NMap) (k : Node) (v : Bytes), containsN m k = false →
    eraseN (m ++ [(k, v)]) k = m
  | [], k, v, _ => by simp [eraseN]
  | (k0, v0) :: rest, k, v, h => by
    have h0 : k0 ≠ k := by
      intro he
      simp [containsN, lookupN, he] at h
    simp only [List.cons_append, eraseN, if_neg h0, List.cons.injEq, true_and]
    apply eraseN_append_not_mem rest k v
    simpa [containsN, lookupN, if_neg h0] using h

theorem eraseN_insertN (m : NMap) (k : Node) (v : Bytes) (h : containsN m k = false) :
    eraseN (insertN m k v) k = m := by
  rw [insertN_not_mem m k v h, eraseN_append_not_mem m k v h]

theorem lookupN_append : ∀ (s1 s2 : NMap) (k : Node),
    lookupN (s1 ++ s2) k =
      match lookupN s1 k with
      | some v => some v
      | none => lookupN s2 k
  | [], s2, k => by simp [lookupN]
  | (k0, v0) :: rest, s2, k => by
    by_cases h : k0 = k
    · simp [lookupN, h]
    · simp only [List.cons_append, lookupN, if_neg h]
      exact lookupN_append rest s2 k

theorem mem_keysOf_iff : ∀ (m : NMap) (k : Node), k ∈ keysOf m ↔ containsN m k = true
  | [], k => by simp [keysOf, containsN, lookupN]
  | (k0, v0) :: rest, k => by
    simp only [keysOf, List.map_cons, List.mem_cons, containsN, lookupN]
    by_cases h : k0 = k
    · simp [h]
    · rw [if_neg h]
      constructor
      · intro hm
        rcases hm with hm | hm
        · exact absurd hm.symm h
        · exact (mem_keysOf_iff rest k).1 hm
      · intro hc
        exact Or.inr ((mem_keysOf_iff rest k).2 hc)

theorem lookupN_mem : ∀ (m : NMap) (k : Node) (v : Bytes),
    lookupN m k = some v → (k, v) ∈ m
  | [], k, v, h => by simp [lookupN] at h
  | (k0, v0) :: rest, k, v, h => by
    by_cases he : k0 = k
    · subst he
      have h3 : v0 = v := Option.some.inj (by simpa [lookupN] using h)
      subst h3
      exact List.mem_cons_self _ _
    · simp only [lookupN, if_neg he] at h
      exact List.mem_cons_of_mem _ (lookupN_mem rest k v h)

theorem mem_lookupN : ∀ (m : NMap) (k : Node) (v : Bytes),
    (keysOf m).Nodup → (k, v) ∈ m → lookupN m k = some v
  | [], k, v, _, h => by simp at h
  | (k0, v0) :: rest, k, v, hnd, h => by
    rcases List.mem_cons.1 h with h1 | h1
    · injection h1 with hk hv
      subst hk
      subst hv
      simp [lookupN]
    · have hnd2 : (keysOf rest).Nodup := (List.nodup_cons.1 hnd).2
      have hk0 : k0 ∉ keysOf rest := (List.nodup_cons.1 hnd).1
      have hne : k0 ≠ k := by
        intro he
        subst he
        exact hk0 (List.mem_map.2 ⟨(k0, v), h1, rfl⟩)
      simp only [lookupN, if_neg hne]
      exact mem_lookupN rest k v hnd2 h1

theorem lookupN_mem_of_contains (m : NMap) (k : Node) (h : containsN m k = true) :
    ∃ v, lookupN m k = some v := by
  unfold containsN at h
  exact Option.isSome_iff_exists.1 h

/-! ## lookAll and addParents lemmas -/

theorem lookAll_map (ell : NMap) (g : Node → Bytes) :
    ∀ (ps : List Node), (∀ p ∈ ps, lookupN ell p = some (g p)) →
      lookAll ell ps = some (ps.map g)
  | [], _ => rfl
  | p :: ps, h => by
    have h1 : lookupN ell p = some (g p) := h p (List.mem_cons_self _ _)
    have h2 : lookAll ell ps = some (ps.map g) :=
      lookAll_map ell g ps (fun q hq => h q (List.mem_cons_of_mem _ hq))
    simp [lookAll, h1, h2]

theorem lookAll_congr (a b : NMap) :
    ∀ (ps : List Node), (∀ p ∈ ps, lookupN a p = lookupN b p) →
      lookAll a ps = lookAll b ps
  | [], _ => rfl
  | p :: ps, h => by
    have h1 : lookupN a p = lookupN b p := h p (List.mem_cons_self _ _)
    have h2 : lookAll a ps = lookAll b ps :=
      lookAll_congr a b ps (fun q hq => h q (List.mem_cons_of_mem _ hq))
    simp only [lookAll, h1, h2]

theorem addParents_of_lookAll (pf : NMap) :
    ∀ (ps : List Node) (acc : Accumulator) (labs : List Bytes),
      lookAll pf ps = some labs → addParents pf acc ps = (true, accAddList acc labs)
  | [], acc, labs, h => by
    simp only [lookAll, Option.some.injEq] at h
    subst h
    rfl
  | p :: ps, acc, labs, h => by
    simp only [lookAll] at h
    cases h1 : lookupN pf p with
    | none => rw [h1] at h; exact absurd h (by simp)
    | some l =>
      rw [h1] at h
      cases h2 : lookAll pf ps with
      | none => rw [h2] at h; exact absurd h (by simp)
      | some ls =>
        rw [h2] at h
        simp only [Option.some.injEq] at h
        subst h
        simp only [addParents, h1]
        exact addParents_of_lookAll pf ps (acc.add l) ls h2

/-! ## Node codec lemmas -/

theorem Node.uniqid_eq (nd : Node) (h : nd.bv < 2 ^ 56) :
    nd.uniqid = nd.len * 2 ^ 56 + nd.bv :=
  shiftLeft_lor_eq_add nd.len 56 nd.bv h

theorem beU64val_beBytes8 (u : Nat) (h : u < 2 ^ 64) : beU64val (beBytes8 u) = u := by
  simp only [beU64val, beBytes8, List.foldl]
  omega

theorem beBytes8_length (u : Nat) : (beBytes8 u).length = 8 := rfl

/-- Claim C5: for every node with `len ≤ 56` whose bits at positions at or
above `len` are zero (the spec's node invariant), serializing to the 8-byte
big-endian uniqid and parsing back yields the same node. -/
theorem C5_node_roundtrip (nd : Node) (hlen : nd.len ≤ 56) (hbv : nd.bv < 2 ^ nd.len) :
    Node.from_bytes (Node.to_bytes nd) = some nd := by
  have hb56 : nd.bv < 2 ^ 56 := Nat.lt_of_lt_of_le hbv (Nat.pow_le_pow_right (by decide) hlen)
  have hu : nd.uniqid = nd.len * 2 ^ 56 + nd.bv := Node.uniqid_eq nd hb56
  have hult : nd.uniqid < 2 ^ 64 := by
    rw [hu]
    have h1 : nd.len * 2 ^ 56 ≤ 56 * 2 ^ 56 := Nat.mul_le_mul_right _ hlen
    omega
  show Node.from_bytes (beBytes8 nd.uniqid) = some nd
  unfold Node.from_bytes
  rw [if_pos (beBytes8_length nd.uniqid), beU64val_beBytes8 nd.uniqid hult]
  have hbv2 : ((nd.uniqid <<< 8) % 2 ^ 64) >>> 8 = nd.bv := by
    rw [Nat.shiftLeft_eq, Nat.shiftRight_eq_div_pow]
    have h64 : (2 : Nat) ^ 64 = 2 ^ 56 * 2 ^ 8 := by norm_num
    rw [h64, Nat.mul_mod_mul_right, Nat.mul_div_cancel _ (by norm_num : (0:Nat) < 2 ^ 8)]
    rw [hu, Nat.add_comm, Nat.add_mul_mod_self_right]
    exact Nat.mod_eq_of_lt hb56
  have hlen2 : nd.uniqid >>> 56 = nd.len := by
    rw [Nat.shiftRight_eq_div_pow, hu, Nat.add_comm, Nat.add_mul_div_right _ _ (two_pow_pos 56),
      Nat.div_eq_of_lt hb56]
    omega
  show some (Node.mk (((nd.uniqid <<< 8) % 2 ^ 64) >>> 8) (nd.uniqid >>> 56)) = some nd
  rw [hbv2, hlen2]

/-- Claim C5 witness: the roundtrip at the concrete node `(bv, len) = (5, 3)`. -/
theorem C5_node_roundtrip_witness :
    (5 : Nat) < 2 ^ 3 ∧ Node.from_bytes (Node.to_bytes (Node.new 5 3)) = some (Node.new 5 3) :=
  ⟨by decide, C5_node_roundtrip (Node.new 5 3) (by decide) (by decide)⟩

/-! ## Parent-relation lemmas (claim C7) -/

theorem countP_range_high (p : Nat → Bool) (a : Nat) :
    ∀ (k : Nat), (∀ i, a ≤ i → p i = false) →
      (List.range (a + k)).countP p = (List.range a).countP p
  | 0, _ => rfl
  | k + 1, h => by
    have h1 : a + (k + 1) = (a + k) + 1 := rfl
    rw [h1, List.range_succ, List.countP_append]
    rw [countP_range_high p a k h]
    have h2 : p (a + k) = false := h (a + k) (Nat.le_add_right a k)
    simp [List.countP_cons, h2]

/-- Claim C7: for a node below the leaf level the parent list is exactly the
pair of distinct children `v.append 0`, `v.append 1`; at the leaf level it
lists `v.take i |>.append 0` for the set bits `i` in increasing order, so its
length is `popcount v.bv`. -/
theorem C7_get_parents (v : Node) (N : Nat) (hbv : v.bv < 2 ^ v.len) (hlen : v.len ≤ 56) :
    (v.len < N → v.get_parents N = [v.append 0, v.append 1] ∧ v.append 0 ≠ v.append 1) ∧
    (v.len = N →
      v.get_parents N =
        ((List.range N).filter (fun i => v.get_bit i = 1)).map (fun i => (v.take i).append 0) ∧
      (v.get_parents N).length = popcount v.bv) := by
  constructor
  · intro hlt
    exact ⟨Node.get_parents_internal v N (by omega), Node.append_zero_ne_append_one v hbv⟩
  · intro heq
    have hleaf := Node.get_parents_leaf v N heq
    refine ⟨hleaf, ?_⟩
    rw [hleaf, List.length_map, ← List.countP_eq_length_filter]
    have hcong : (List.range N).countP (fun i => v.get_bit i = 1) =
        (List.range N).countP (fun i => v.bv / 2 ^ i % 2 = 1) := by
      apply List.countP_congr
      intro i _
      rw [Node.get_bit_eq]
    rw [hcong]
    unfold popcount
    have h64 : (64 : Nat) = N + (64 - N) := by omega
    rw [h64, countP_range_high _ N (64 - N)]
    intro i hi
    have hz : v.bv / 2 ^ i = 0 := by
      apply Nat.div_eq_of_lt
      calc v.bv < 2 ^ v.len := hbv
      _ ≤ 2 ^ i := Nat.pow_le_pow_right (by decide) (by omega)
    simp [hz]

/-- Claim C7 witness: the parent lists at the concrete node `(5, 3)`, both as
a leaf (`N = 3`) and as an internal node (`N = 4`). -/
theorem C7_get_parents_witness :
    ((5 : Nat) < 2 ^ 3 ∧ (3 : Nat) ≤ 56) ∧
    ((Node.new 5 3).len < 4 →
      (Node.new 5 3).get_parents 4 = [(Node.new 5 3).append 0, (Node.new 5 3).append 1] ∧
      (Node.new 5 3).append 0 ≠ (Node.new 5 3).append 1) :=
  ⟨⟨by decide, by decide⟩, (C7_get_parents (Node.new 5 3) 4 (by decide) (by decide)).1⟩

/-! ## Proof codec lemmas (claim C9) -/

theorem fromBytesLoop_isSome :
    ∀ (fuel : Nat) (bts : Bytes) (m : NMap), bts.length % 40 = 0 →
      bts.length ≤ 40 * fuel → (fromBytesLoop fuel bts m).isSome = true
  | fuel, [], _, _, _ => by cases fuel <;> rfl
  | 0, b :: bts, _, _, hle => by
    simp at hle
  | fuel + 1, b :: bts, m, hmod, hle => by
    have hlen : (b :: bts).length ≥ 40 := by
      have h1 : (b :: bts).length ≥ 1 := by simp
      omega
    have htake : ((b :: bts).take 8).length = 8 := by
      rw [List.length_take]
      omega
    show (match Node.from_bytes ((b :: bts).take 8) with
      | none => none
      | some nd =>
          fromBytesLoop fuel ((b :: bts).drop 40) (insertN m nd (((b :: bts).drop 8).take 32))).isSome = true
    unfold Node.from_bytes
    rw [if_pos htake]
    apply fromBytesLoop_isSome fuel _ _
    · rw [List.length_drop]
      omega
    · rw [List.length_drop]
      omega

/-- Claim C9: `from_bytes` is absent exactly on inputs whose length is not a
multiple of 40; every well-formed concatenation of 40-byte records parses to
a proof (an 8-byte node record is never malformed on its own). -/
theorem C9_from_bytes_isSome (bts : Bytes) :
    (Proof.from_bytes bts).isSome = (bts.length % 40 == 0) := by
  unfold Proof.from_bytes
  by_cases h : bts.length % 40 = 0
  · rw [if_neg (by omega)]
    rw [fromBytesLoop_isSome bts.length bts [] h (by omega)]
    simp [h]
  · rw [if_pos h]
    simp only [Option.isSome_none]
    have : (bts.length % 40 == 0) = false := by
      simp [h]
    rw [this]

/-! ## The labeling DAG: subtree predicate and local label equations -/

theorem hashH_length (l : Bytes) : (hashH l).length = 32 := by
  simp [hashH]

/-- `v` is a wellformed vertex of the depth-`n` DAG lying in the subtree
rooted at `nd`: its bits above its length are zero, its length is between
`nd.len` and `n`, and its low `nd.len` bits are exactly `nd`. -/
def subN (nd : Node) (n : Nat) (v : Node) : Prop :=
  v.bv < 2 ^ v.len ∧ nd.len ≤ v.len ∧ v.len ≤ n ∧ v.bv % 2 ^ nd.len = nd.bv

/-- Label assignment read during the traversal of a subtree: prefer the
labels emitted inside the subtree (`s`), fall back to the surrounding
context map (`ell`). -/
def lookE (ell s : NMap) (v : Node) : Option Bytes :=
  match lookupN s v with
  | some l => some l
  | none => lookupN ell v

/-- `lookAll` generalised to an arbitrary label assignment. -/
def lookAllF (f : Node → Option Bytes) : List Node → Option (List Bytes)
  | [] => some []
  | p :: ps =>
    match f p with
    | none => none
    | some l =>
      match lookAllF f ps with
      | none => none
      | some ls => some (l :: ls)

theorem lookAll_eq_lookAllF (ell : NMap) :
    ∀ (ps : List Node), lookAll ell ps = lookAllF (fun u => lookupN ell u) ps
  | [] => rfl
  | p :: ps => by
    simp only [lookAll, lookAllF]
    rw [lookAll_eq_lookAllF ell ps]

theorem lookAllF_congr (f g : Node → Option Bytes) :
    ∀ (ps : List Node), (∀ p ∈ ps, f p = g p) → lookAllF f ps = lookAllF g ps
  | [], _ => rfl
  | p :: ps, h => by
    simp only [lookAllF, h p (List.mem_cons_self _ _),
      lookAllF_congr f g ps (fun q hq => h q (List.mem_cons_of_mem _ hq))]

/-- The leaf labeling equation of `calc_labels_helper` (`node.rs` lines
120-131) relative to a label assignment `f`. -/
def leafEq (chi : Bytes) (n : Nat) (f : Node → Option Bytes) (v : Node) (lv : Bytes) : Prop :=
  ∃ labs, lookAllF f (v.get_parents n) = some labs ∧
    lv = (accAddList ((Accumulator.new chi).add v.to_bytes) labs).hash

/-- The internal labeling equation of `calc_labels_helper` (`node.rs` lines
140-144) relative to a label assignment `f`. -/
def nodeEq (chi : Bytes) (f : Node → Option Bytes) (v : Node) (lv : Bytes) : Prop :=
  ∃ l0 l1, f (v.append 0) = some l0 ∧ f (v.append 1) = some l1 ∧
    lv = ((((Accumulator.new chi).add v.to_bytes).add l0).add l1).hash

/-- A stream entry is correctly labeled relative to assignment `f`. -/
def goodEntry (chi : Bytes) (n : Nat) (f : Node → Option Bytes) (v : Node) (lv : Bytes) : Prop :=
  if v.len = n then leafEq chi n f v lv else nodeEq chi f v lv

/-- The nodes whose labels the labeling equation of `v` reads. -/
def relevantN (v : Node) (n : Nat) : List Node :=
  if v.len = n then v.get_parents n else [v.append 0, v.append 1]

theorem goodEntry_congr (chi : Bytes) (n : Nat) (f g : Node → Option Bytes) (v : Node)
    (lv : Bytes) (h : ∀ u ∈ relevantN v n, f u = g u) :
    goodEntry chi n f v lv → goodEntry chi n g v lv := by
  intro hgf
  unfold goodEntry at hgf ⊢
  unfold relevantN at h
  by_cases hv : v.len = n
  · rw [if_pos hv] at hgf ⊢
    rw [if_pos hv] at h
    obtain ⟨labs, h1, h2⟩ := hgf
    refine ⟨labs, ?_, h2⟩
    rw [← lookAllF_congr f g _ h]
    exact h1
  · rw [if_neg hv] at hgf ⊢
    rw [if_neg hv] at h
    obtain ⟨l0, l1, h0, h1, h2⟩ := hgf
    refine ⟨l0, l1, ?_, ?_, h2⟩
    · rw [← h (v.append 0) (by simp)]
      exact h0
    · rw [← h (v.append 1) (by simp)]
      exact h1

/-! ## subN lemmas -/

theorem subN_refl (nd : Node) (n : Nat) (hw : nd.bv < 2 ^ nd.len) (hn : nd.len ≤ n) :
    subN nd n nd :=
  ⟨hw, Nat.le_refl _, hn, Nat.mod_eq_of_lt hw⟩

theorem subN_eq_of_len (nd : Node) (n : Nat) (v : Node) (h : subN nd n v)
    (hl : v.len = nd.len) : v = nd := by
  obtain ⟨h1, _, _, h4⟩ := h
  apply Node.eq_of
  · rw [← h4]
    exact (Nat.mod_eq_of_lt (hl ▸ h1)).symm
  · exact hl

theorem takeApp0_bv (v : Node) (i : Nat) : ((v.take i).append 0).bv = v.bv % 2 ^ i := by
  rw [Node.append_bv _ _ (v.take_bv_lt i), Node.take_bv, Node.take_len]
  simp

theorem takeApp0_len (v : Node) (i : Nat) : ((v.take i).append 0).len = i + 1 := rfl

theorem subN_bit (P : Node) (n : Nat) (v : Node) (h : subN P n v) (i : Nat) (hi : i < P.len) :
    v.bv / 2 ^ i % 2 = P.bv / 2 ^ i % 2 := by
  have h4 := h.2.2.2
  have := bit_mod_pow v.bv P.len i
  rw [if_pos hi] at this
  rw [← this, h4]

/-- A node of the subtree strictly below the root splits into one of the two
child subtrees, according to its bit at position `nd.len`. -/
theorem subN_split (nd : Node) (n : Nat) (v : Node) (hw : nd.bv < 2 ^ nd.len)
    (h : subN nd n v) (hlt : nd.len < v.len) :
    subN (nd.append (v.bv / 2 ^ nd.len % 2)) n v ∧ v.bv / 2 ^ nd.len % 2 ≤ 1 := by
  obtain ⟨h1, h2, h3, h4⟩ := h
  have hb : v.bv / 2 ^ nd.len % 2 ≤ 1 := by
    have := Nat.mod_lt (v.bv / 2 ^ nd.len) (show 0 < 2 by decide)
    omega
  refine ⟨⟨h1, ?_, h3, ?_⟩, hb⟩
  · rw [Node.append_len]
    omega
  · rw [Node.append_len, Node.append_bv nd _ hw, mod_pow_split, h4]

/-- Membership in a child subtree implies membership in the parent subtree. -/
theorem subN_unsplit (nd : Node) (n : Nat) (b : Nat) (v : Node)
    (hw : nd.bv < 2 ^ nd.len) (h : subN (nd.append b) n v) : subN nd n v := by
  obtain ⟨h1, h2, h3, h4⟩ := h
  rw [Node.append_len] at h2 h4
  rw [Node.append_bv nd b hw] at h4
  refine ⟨h1, by omega, h3, ?_⟩
  have hd : v.bv % 2 ^ nd.len = v.bv % 2 ^ (nd.len + 1) % 2 ^ nd.len :=
    (Nat.mod_mod_of_dvd _ (pow_dvd_pow 2 (Nat.le_succ _))).symm
  rw [hd, h4, Nat.add_mul_mod_self_right, Nat.mod_eq_of_lt hw]

/-- The two child subtrees are disjoint. -/
theorem subN_disjoint (nd : Node) (n : Nat) (v : Node) (hw : nd.bv < 2 ^ nd.len)
    (h0 : subN (nd.append 0) n v) (h1 : subN (nd.append 1) n v) : False := by
  have e0 := h0.2.2.2
  have e1 := h1.2.2.2
  rw [Node.append_len, Node.append_bv nd 0 hw] at e0
  rw [Node.append_len, Node.append_bv nd 1 hw] at e1
  have : 0 < 2 ^ nd.len := two_pow_pos nd.len
  omega

/-- The subtree root itself is not inside either child subtree. -/
theorem not_subN_append_self (nd : Node) (n : Nat) (b : Nat) (h : subN (nd.append b) n nd) :
    False := by
  have := h.2.1
  rw [Node.append_len] at this
  omega

/-- Appending a bit stays inside any enclosing subtree. -/
theorem subN_append_child (P : Node) (n : Nat) (v : Node) (b : Nat) (h : subN P n v)
    (hb : b ≤ 1) (hlt : v.len < n) : subN P n (v.append b) := by
  obtain ⟨h1, h2, h3, h4⟩ := h
  refine ⟨Node.append_bv_lt v b h1 hb, ?_, ?_, ?_⟩
  · rw [Node.append_len]; omega
  · rw [Node.append_len]; omega
  · rw [Node.append_bv v b h1]
    have hp : b * 2 ^ v.len = b * 2 ^ (v.len - P.len) * 2 ^ P.len := by
      rw [Nat.mul_assoc, ← Nat.pow_add]
      congr 2
      omega
    rw [hp, Nat.add_mul_mod_self_right, h4]

/-- An ancestor sibling `take(i).append(0)` of a subtree node, with `i` at or
beyond the subtree root's depth, stays inside the subtree. -/
theorem subN_parent_in (P : Node) (n : Nat) (v : Node) (i : Nat) (h : subN P n v)
    (hip : P.len ≤ i) (hin : i < n) : subN P n ((v.take i).append 0) := by
  obtain ⟨h1, h2, h3, h4⟩ := h
  refine ⟨?_, ?_, ?_, ?_⟩
  · rw [takeApp0_bv, takeApp0_len]
    exact Nat.lt_of_lt_of_le (Nat.mod_lt _ (two_pow_pos i))
      (Nat.pow_le_pow_right (by decide) (Nat.le_succ i))
  · rw [takeApp0_len]; omega
  · rw [takeApp0_len]; omega
  · rw [takeApp0_bv, Nat.mod_mod_of_dvd _ (pow_dvd_pow 2 hip), h4]

/-! ## Additional map lemmas -/

theorem containsN_insertN_mono (m : NMap) (k2 : Node) (v : Bytes) (k : Node)
    (h : containsN m k = true) : containsN (insertN m k2 v) k = true := by
  by_cases he : k2 = k
  · subst he
    simp [containsN, lookupN_insertN_self]
  · unfold containsN at *
    rw [lookupN_insertN_ne m k2 v k he]
    exact h

theorem containsN_insertN_elim (m : NMap) (k2 : Node) (v : Bytes) (k : Node)
    (h : containsN (insertN m k2 v) k = true) : k = k2 ∨ containsN m k = true := by
  by_cases he : k2 = k
  · exact Or.inl he.symm
  · unfold containsN at h
    rw [lookupN_insertN_ne m k2 v k he] at h
    exact Or.inr h

theorem not_mem_lookupN (m : NMap) (k : Node) (h : ¬ k ∈ keysOf m) : lookupN m k = none := by
  cases hl : lookupN m k with
  | none => rfl
  | some v =>
    exact absurd ((mem_keysOf_iff m k).2 (by simp [containsN, hl])) h

theorem lookupN_append_of_some (s1 s2 : NMap) (k : Node) (v : Bytes)
    (h : lookupN s1 k = some v) : lookupN (s1 ++ s2) k = some v := by
  rw [lookupN_append, h]

theorem lookupN_append_of_none (s1 s2 : NMap) (k : Node)
    (h : lookupN s1 k = none) : lookupN (s1 ++ s2) k = lookupN s2 k := by
  rw [lookupN_append, h]

theorem keysOf_append (s1 s2 : NMap) : keysOf (s1 ++ s2) = keysOf s1 ++ keysOf s2 :=
  List.map_append _ _ _

theorem lookAll_some (ell : NMap) :
    ∀ (ps : List Node), (∀ p ∈ ps, containsN ell p = true) →
      ∃ labs, lookAll ell ps = some labs
  | [], _ => ⟨[], rfl⟩
  | p :: ps, h => by
    obtain ⟨v, hv⟩ := lookupN_mem_of_contains ell p (h p (List.mem_cons_self _ _))
    obtain ⟨labs, hlabs⟩ := lookAll_some ell ps (fun q hq => h q (List.mem_cons_of_mem _ hq))
    exact ⟨v :: labs, by simp [lookAll, hv, hlabs]⟩

/-- Membership in the leaf parent list. -/
theorem mem_get_parents_leaf (v : Node) (n : Nat) (hv : v.len = n) (u : Node) :
    u ∈ v.get_parents n ↔ ∃ i, i < n ∧ v.get_bit i = 1 ∧ u = (v.take i).append 0 := by
  rw [Node.get_parents_leaf v n hv]
  constructor
  · intro h
    obtain ⟨i, hi, hu⟩ := List.mem_map.1 h
    obtain ⟨hir, hib⟩ := List.mem_filter.1 hi
    exact ⟨i, List.mem_range.1 hir, by simpa using hib, hu.symm⟩
  · rintro ⟨i, hi, hb, hu⟩
    exact List.mem_map.2 ⟨i, List.mem_filter.2 ⟨List.mem_range.2 hi, by simpa using hb⟩, hu.symm⟩

/-! ## Unfolding equations for the labeler -/

theorem clh_zero_eq (chi : Bytes) (n : Nat) (nd : Node) (ell : NMap) :
    clh chi n 0 nd ell =
      (if nd.len = n then
        match lookAll ell (nd.get_parents n) with
        | none => none
        | some labs =>
          some ((accAddList ((Accumulator.new chi).add nd.to_bytes) labs).hash,
            [(nd, (accAddList ((Accumulator.new chi).add nd.to_bytes) labs).hash)], ell)
      else none) := rfl

theorem clh_succ_eq (chi : Bytes) (n : Nat) (fuel : Nat) (nd : Node) (ell : NMap) :
    clh chi n (fuel + 1) nd ell =
      (if nd.len = n then
        match lookAll ell (nd.get_parents n) with
        | none => none
        | some labs =>
          some ((accAddList ((Accumulator.new chi).add nd.to_bytes) labs).hash,
            [(nd, (accAddList ((Accumulator.new chi).add nd.to_bytes) labs).hash)], ell)
      else
        match clh chi n fuel (nd.append 0) ell with
        | none => none
        | some (l0, s0, ell0) =>
          match clh chi n fuel (nd.append 1) (insertN ell0 (nd.append 0) l0) with
          | none => none
          | some (l1, s1, ell2) =>
            some (((((Accumulator.new chi).add nd.to_bytes).add l0).add l1).hash,
              s0 ++ s1 ++ [(nd, ((((Accumulator.new chi).add nd.to_bytes).add l0).add l1).hash)],
              eraseN ell2 (nd.append 0))) := rfl

/-! ## Geometric helper lemmas for the traversal induction -/

theorem bit_one_le (x i : Nat) (h : x / 2 ^ i % 2 = 1) : 2 ^ i ≤ x := by
  by_contra hlt
  push_neg at hlt
  rw [Nat.div_eq_of_lt hlt] at h
  simp at h

/-- An ancestor sibling taken at or below the root depth of the left subtree
never lies in the right subtree. -/
theorem parent_not_in_right (nd : Node) (n : Nat) (v : Node) (i : Nat)
    (hw : nd.bv < 2 ^ nd.len) (hv : subN (nd.append 0) n v) (hile : i ≤ nd.len) :
    ¬ subN (nd.append 1) n ((v.take i).append 0) := by
  intro hsub
  have hlen := hsub.2.1
  rw [takeApp0_len, Node.append_len] at hlen
  have hieq : i = nd.len := by omega
  subst hieq
  have he1 := hsub.2.2.2
  rw [takeApp0_bv, Node.append_len, Node.append_bv nd 1 hw] at he1
  have hvbv : v.bv % 2 ^ nd.len = nd.bv := (subN_unsplit nd n 0 v hw hv).2.2.2
  rw [hvbv] at he1
  have hmm : nd.bv % 2 ^ (nd.len + 1) = nd.bv :=
    Nat.mod_eq_of_lt
      (Nat.lt_of_lt_of_le hw (Nat.pow_le_pow_right (by decide) (Nat.le_succ _)))
  rw [hmm] at he1
  have := two_pow_pos nd.len
  omega

/-- An ancestor sibling at a set bit strictly below the root depth differs
from the root. -/
theorem parent_ne_self (nd : Node) (n : Nat) (v : Node) (i : Nat)
    (hvnd : subN nd n v) (hbi : v.bv / 2 ^ i % 2 = 1) (hi : i < nd.len) :
    (v.take i).append 0 ≠ nd := by
  intro he
  have hbv : ((v.take i).append 0).bv = nd.bv := by rw [he]
  rw [takeApp0_bv] at hbv
  have hbit := subN_bit nd n v hvnd i hi
  rw [hbi] at hbit
  have hge : 2 ^ i ≤ nd.bv := bit_one_le nd.bv i hbit.symm
  have hlt : nd.bv < 2 ^ i := hbv ▸ Nat.mod_lt _ (two_pow_pos i)
  omega

theorem append1_not_subN_append0 (nd : Node) (n : Nat) (hw : nd.bv < 2 ^ nd.len) :
    ¬ subN (nd.append 0) n (nd.append 1) := by
  intro h
  exact Node.append_zero_ne_append_one nd hw (subN_eq_of_len _ _ _ h rfl).symm

theorem append0_not_subN_append1 (nd : Node) (n : Nat) (hw : nd.bv < 2 ^ nd.len) :
    ¬ subN (nd.append 1) n (nd.append 0) := by
  intro h
  exact Node.append_zero_ne_append_one nd hw (subN_eq_of_len _ _ _ h rfl)

/-- The ancestor sibling of the right-subtree node taken exactly at the root
depth is the pinned left sibling itself. -/
theorem parent_at_root_depth (nd : Node) (n : Nat) (v : Node)
    (hw : nd.bv < 2 ^ nd.len) (hv : subN (nd.append 1) n v) :
    (v.take nd.len).append 0 = nd.append 0 := by
  apply Node.eq_of
  · rw [takeApp0_bv, Node.append_bv nd 0 hw, (subN_unsplit nd n 1 v hw hv).2.2.2]
    simp
  · rw [takeApp0_len, Node.append_len]

theorem lookE_of_none (ell s : NMap) (v : Node) (h : lookupN s v = none) :
    lookE ell s v = lookupN ell v := by
  unfold lookE
  rw [h]

theorem lookE_of_some (ell s : NMap) (v : Node) (l : Bytes) (h : lookupN s v = some l) :
    lookE ell s v = some l := by
  unfold lookE
  rw [h]

/-- A node of the left subtree has bit 0 at the root's depth. -/
theorem subN_append0_bit_at (nd : Node) (n : Nat) (v : Node) (hw : nd.bv < 2 ^ nd.len)
    (hv : subN (nd.append 0) n v) : v.bv / 2 ^ nd.len % 2 = 0 := by
  have hb := subN_bit (nd.append 0) n v hv nd.len (by rw [Node.append_len]; omega)
  rw [Node.append_bv nd 0 hw] at hb
  simp only [Nat.zero_mul, Nat.add_zero] at hb
  rw [hb, Nat.div_eq_of_lt hw]

theorem clh_main (chi : Bytes) (n : Nat) :
    ∀ (fuel : Nat) (nd : Node) (ell : NMap),
      nd.bv < 2 ^ nd.len →
      nd.len + fuel = n →
      (∀ i, i < nd.len → nd.bv / 2 ^ i % 2 = 1 → containsN ell ((nd.take i).append 0) = true) →
      (∀ k, containsN ell k = true → k.len ≤ nd.len) →
      ∃ L s,
        clh chi n fuel nd ell = some (L, s, ell) ∧
        (∀ v, v ∈ keysOf s ↔ subN nd n v) ∧
        (keysOf s).Nodup ∧
        lookupN s nd = some L ∧
        (∀ v lv, (v, lv) ∈ s → lv.length = 32 ∧ goodEntry chi n (lookE ell s) v lv) := by
  intro fuel
  induction fuel with
  | zero =>
    intro nd ell hw hfuel h3 h4
    have hleaf : nd.len = n := by omega
    have hcont : ∀ p ∈ nd.get_parents n, containsN ell p = true := by
      intro p hp
      obtain ⟨i, hi, hb, hpe⟩ := (mem_get_parents_leaf nd n hleaf p).1 hp
      subst hpe
      apply h3 i (by omega)
      rw [← Node.get_bit_eq]
      exact hb
    obtain ⟨labs, hlabs⟩ := lookAll_some ell (nd.get_parents n) hcont
    refine ⟨(accAddList ((Accumulator.new chi).add nd.to_bytes) labs).hash,
      [(nd, (accAddList ((Accumulator.new chi).add nd.to_bytes) labs).hash)], ?_, ?_, ?_, ?_, ?_⟩
    · rw [clh_zero_eq, if_pos hleaf, hlabs]
    · intro v
      simp only [keysOf, List.map_cons, List.map_nil, List.mem_singleton]
      constructor
      · intro hveq
        rw [hveq]
        exact subN_refl nd n hw (by omega)
      · intro hs
        have hvl : v.len = nd.len := by
          have h1 := hs.2.1
          have h2 := hs.2.2.1
          omega
        exact subN_eq_of_len nd n v hs hvl
    · simp [keysOf]
    · simp [lookupN]
    · intro v lv hv
      have heq := List.mem_singleton.1 hv
      injection heq with hv1 hv2
      have hv1b : nd = v := hv1.symm
      subst hv1b
      subst hv2
      refine ⟨hashH_length _, ?_⟩
      unfold goodEntry
      rw [if_pos hleaf]
      refine ⟨labs, ?_, rfl⟩
      have hcg : ∀ u ∈ nd.get_parents n,
          lookE ell [(nd, (accAddList ((Accumulator.new chi).add nd.to_bytes) labs).hash)] u =
            lookupN ell u := by
        intro u hu
        obtain ⟨i, hi, hb, hue⟩ := (mem_get_parents_leaf nd n hleaf u).1 hu
        subst hue
        have hne2 : (nd.take i).append 0 ≠ nd := by
          apply parent_ne_self nd n nd i (subN_refl nd n hw (by omega)) ?_ (by omega)
          rw [← Node.get_bit_eq]
          exact hb
        apply lookE_of_none
        simp only [lookupN]
        rw [if_neg (fun h => hne2 h.symm)]
      rw [lookAllF_congr _ _ _ hcg, ← lookAll_eq_lookAllF]
      exact hlabs
  | succ f ih =>
    intro nd ell hw hfuel h3 h4
    have hne : ¬ nd.len = n := by omega
    have hw0 : (nd.append 0).bv < 2 ^ (nd.append 0).len := Node.append_bv_lt nd 0 hw (by decide)
    have hw1 : (nd.append 1).bv < 2 ^ (nd.append 1).len := Node.append_bv_lt nd 1 hw (by decide)
    have h30 : ∀ i, i < (nd.append 0).len → (nd.append 0).bv / 2 ^ i % 2 = 1 →
        containsN ell (((nd.append 0).take i).append 0) = true := by
      intro i hi hb
      rw [Node.append_len] at hi
      rw [Node.append_bit nd 0 i hw (by decide)] at hb
      by_cases hil : i < nd.len
      · rw [if_pos hil] at hb
        rw [Node.take_of_append nd 0 i hw (by omega)]
        exact h3 i hil hb
      · rw [if_neg hil] at hb
        by_cases hie : i = nd.len
        · rw [if_pos hie] at hb
          exact absurd hb (by decide)
        · rw [if_neg hie] at hb
          exact absurd hb (by decide)
    have h40 : ∀ k, containsN ell k = true → k.len ≤ (nd.append 0).len := by
      intro k hk
      rw [Node.append_len]
      exact Nat.le_succ_of_le (h4 k hk)
    obtain ⟨L0, s0, hclh0, hkeys0, hnodup0, hlook0, hgood0⟩ :=
      ih (nd.append 0) ell hw0 (by rw [Node.append_len]; omega) h30 h40
    have h31 : ∀ i, i < (nd.append 1).len → (nd.append 1).bv / 2 ^ i % 2 = 1 →
        containsN (insertN ell (nd.append 0) L0) (((nd.append 1).take i).append 0) = true := by
      intro i hi hb
      rw [Node.append_len] at hi
      rw [Node.append_bit nd 1 i hw (by decide)] at hb
      by_cases hil : i < nd.len
      · rw [if_pos hil] at hb
        rw [Node.take_of_append nd 1 i hw (by omega)]
        exact containsN_insertN_mono ell (nd.append 0) L0 _ (h3 i hil hb)
      · have hie : i = nd.len := by omega
        subst hie
        rw [Node.take_of_append nd 1 nd.len hw (Nat.le_refl nd.len), Node.take_self nd hw]
        unfold containsN
        rw [lookupN_insertN_self]
        rfl
    have h41 : ∀ k, containsN (insertN ell (nd.append 0) L0) k = true →
        k.len ≤ (nd.append 1).len := by
      intro k hk
      rcases containsN_insertN_elim ell (nd.append 0) L0 k hk with he | he
      · subst he
        exact Nat.le_refl _
      · exact Nat.le_succ_of_le (h4 k he)
    obtain ⟨L1, s1, hclh1, hkeys1, hnodup1, hlook1, hgood1⟩ :=
      ih (nd.append 1) (insertN ell (nd.append 0) L0) hw1 (by rw [Node.append_len]; omega) h31 h41
    have hcontell : containsN ell (nd.append 0) = false := by
      cases hc : containsN ell (nd.append 0) with
      | false => rfl
      | true =>
        have hcc := h4 _ hc
        rw [Node.append_len] at hcc
        omega
    have herase : eraseN (insertN ell (nd.append 0) L0) (nd.append 0) = ell :=
      eraseN_insertN ell (nd.append 0) L0 hcontell
    set lab2 := ((((Accumulator.new chi).add nd.to_bytes).add L0).add L1).hash with hlab2
    set ss : NMap := s0 ++ s1 ++ [(nd, lab2)] with hss
    have hnd0 : nd ∉ keysOf s0 := fun hc => not_subN_append_self nd n 0 ((hkeys0 nd).1 hc)
    have hnd1 : nd ∉ keysOf s1 := fun hc => not_subN_append_self nd n 1 ((hkeys1 nd).1 hc)
    have hdisj : ∀ u, u ∈ keysOf s0 → u ∈ keysOf s1 → False := fun u a b =>
      subN_disjoint nd n u hw ((hkeys0 u).1 a) ((hkeys1 u).1 b)
    have hs_left : ∀ u, u ∈ keysOf s0 → lookupN ss u = lookupN s0 u := by
      intro u hu
      obtain ⟨vu, hvu⟩ := lookupN_mem_of_contains s0 u ((mem_keysOf_iff s0 u).1 hu)
      rw [hss, List.append_assoc, lookupN_append_of_some s0 _ u vu hvu, hvu]
    have hs_mid : ∀ u, u ∈ keysOf s1 → lookupN ss u = lookupN s1 u := by
      intro u hu
      have hu0 : ¬ u ∈ keysOf s0 := fun hc => hdisj u hc hu
      obtain ⟨vu, hvu⟩ := lookupN_mem_of_contains s1 u ((mem_keysOf_iff s1 u).1 hu)
      rw [hss, List.append_assoc, lookupN_append_of_none s0 _ u (not_mem_lookupN s0 u hu0),
        lookupN_append_of_some s1 _ u vu hvu, hvu]
    have hs_none : ∀ u, ¬ u ∈ keysOf s0 → ¬ u ∈ keysOf s1 → u ≠ nd → lookupN ss u = none := by
      intro u h0 h1 hn2
      rw [hss, List.append_assoc, lookupN_append_of_none s0 _ u (not_mem_lookupN s0 u h0),
        lookupN_append_of_none s1 _ u (not_mem_lookupN s1 u h1)]
      simp only [lookupN]
      rw [if_neg (fun he => hn2 he.symm)]
    refine ⟨lab2, ss, ?_, ?_, ?_, ?_, ?_⟩
    · rw [clh_succ_eq, if_neg hne]
      simp only [hclh0, hclh1, herase, hss]
    · intro v
      rw [hss]
      simp only [keysOf_append, List.mem_append]
      constructor
      · rintro ((hv | hv) | hv)
        · exact subN_unsplit nd n 0 v hw ((hkeys0 v).1 hv)
        · exact subN_unsplit nd n 1 v hw ((hkeys1 v).1 hv)
        · have hvnd : v = nd := by simpa [keysOf] using hv
          rw [hvnd]
          exact subN_refl nd n hw (by omega)
      · intro hv
        by_cases hlen : v.len = nd.len
        · refine Or.inr ?_
          have hvnd : v = nd := subN_eq_of_len nd n v hv hlen
          rw [hvnd]
          simp [keysOf]
        · have hlt2 : nd.len < v.len := by
            have h5 := hv.2.1
            omega
          obtain ⟨hsplit, hble⟩ := subN_split nd n v hw hv hlt2
          have hb2 : v.bv / 2 ^ nd.len % 2 = 0 ∨ v.bv / 2 ^ nd.len % 2 = 1 := by omega
          rcases hb2 with hb | hb
          · rw [hb] at hsplit
            exact Or.inl (Or.inl ((hkeys0 v).2 hsplit))
          · rw [hb] at hsplit
            exact Or.inl (Or.inr ((hkeys1 v).2 hsplit))
    · rw [hss]
      simp only [keysOf_append]
      rw [List.nodup_append, List.nodup_append]
      refine ⟨⟨hnodup0, hnodup1, ?_⟩, List.nodup_singleton _, ?_⟩
      · intro a ha hb
        exact hdisj a ha hb
      · intro a ha hb
        have hand : a = nd := by simpa [keysOf] using hb
        subst hand
        rcases List.mem_append.1 ha with h | h
        · exact hnd0 h
        · exact hnd1 h
    · rw [hss, List.append_assoc, lookupN_append_of_none s0 _ nd (not_mem_lookupN s0 nd hnd0),
        lookupN_append_of_none s1 _ nd (not_mem_lookupN s1 nd hnd1)]
      simp [lookupN]
    · intro v lv hv
      rw [hss] at hv
      rcases List.mem_append.1 hv with hv2 | hv2
      · rcases List.mem_append.1 hv2 with hv3 | hv3
        · -- entry of the left subtree
          obtain ⟨hlen32, hge⟩ := hgood0 v lv hv3
          refine ⟨hlen32, goodEntry_congr chi n (lookE ell s0) (lookE ell ss) v lv ?_ hge⟩
          intro u hu
          have hvsub0 : subN (nd.append 0) n v :=
            (hkeys0 v).1 (List.mem_map.2 ⟨(v, lv), hv3, rfl⟩)
          by_cases hu0 : u ∈ keysOf s0
          · obtain ⟨vu, hvu⟩ := lookupN_mem_of_contains s0 u ((mem_keysOf_iff s0 u).1 hu0)
            rw [lookE_of_some ell s0 u vu hvu,
              lookE_of_some ell ss u vu (by rw [hs_left u hu0]; exact hvu)]
          · unfold relevantN at hu
            by_cases hvleaf : v.len = n
            · rw [if_pos hvleaf] at hu
              obtain ⟨i, hin, hbi, hue⟩ := (mem_get_parents_leaf v n hvleaf u).1 hu
              subst hue
              have hbi2 : v.bv / 2 ^ i % 2 = 1 := by
                rw [← Node.get_bit_eq]
                exact hbi
              have hile : i ≤ nd.len := by
                by_contra hgt
                push_neg at hgt
                have h5 : (nd.append 0).len ≤ i := by rw [Node.append_len]; omega
                exact hu0 ((hkeys0 _).2 (subN_parent_in (nd.append 0) n v i hvsub0 h5 hin))
              have hilt : i < nd.len := by
                rcases Nat.lt_or_ge i nd.len with h5 | h5
                · exact h5
                · have hie : i = nd.len := by omega
                  subst hie
                  rw [subN_append0_bit_at nd n v hw hvsub0] at hbi2
                  exact absurd hbi2 (by decide)
              have hu1 : ¬ (v.take i).append 0 ∈ keysOf s1 := by
                intro hc
                exact parent_not_in_right nd n v i hw hvsub0 hile ((hkeys1 _).1 hc)
              have hund : (v.take i).append 0 ≠ nd :=
                parent_ne_self nd n v i (subN_unsplit nd n 0 v hw hvsub0) hbi2 hilt
              rw [lookE_of_none ell s0 _ (not_mem_lookupN s0 _ hu0),
                lookE_of_none ell ss _ (hs_none _ hu0 hu1 hund)]
            · rw [if_neg hvleaf] at hu
              have hvlen : v.len < n := by
                have h5 := hvsub0.2.2.1
                omega
              have humem : u ∈ keysOf s0 := by
                rcases List.mem_cons.1 hu with hu2 | hu2
                · subst hu2
                  exact (hkeys0 _).2
                    (subN_append_child (nd.append 0) n v 0 hvsub0 (by decide) hvlen)
                · have hu3 : u = v.append 1 := by simpa using hu2
                  subst hu3
                  exact (hkeys0 _).2
                    (subN_append_child (nd.append 0) n v 1 hvsub0 (by decide) hvlen)
              exact absurd humem hu0
        · -- entry of the right subtree
          obtain ⟨hlen32, hge⟩ := hgood1 v lv hv3
          refine ⟨hlen32, goodEntry_congr chi n (lookE (insertN ell (nd.append 0) L0) s1)
            (lookE ell ss) v lv ?_ hge⟩
          intro u hu
          have hvsub1 : subN (nd.append 1) n v :=
            (hkeys1 v).1 (List.mem_map.2 ⟨(v, lv), hv3, rfl⟩)
          by_cases hu1m : u ∈ keysOf s1
          · obtain ⟨vu, hvu⟩ := lookupN_mem_of_contains s1 u ((mem_keysOf_iff s1 u).1 hu1m)
            rw [lookE_of_some _ s1 u vu hvu,
              lookE_of_some ell ss u vu (by rw [hs_mid u hu1m]; exact hvu)]
          · unfold relevantN at hu
            by_cases hvleaf : v.len = n
            · rw [if_pos hvleaf] at hu
              obtain ⟨i, hin, hbi, hue⟩ := (mem_get_parents_leaf v n hvleaf u).1 hu
              subst hue
              have hbi2 : v.bv / 2 ^ i % 2 = 1 := by
                rw [← Node.get_bit_eq]
                exact hbi
              have hile : i ≤ nd.len := by
                by_contra hgt
                push_neg at hgt
                have h5 : (nd.append 1).len ≤ i := by rw [Node.append_len]; omega
                exact hu1m ((hkeys1 _).2 (subN_parent_in (nd.append 1) n v i hvsub1 h5 hin))
              by_cases hieq : i = nd.len
              · subst hieq
                rw [parent_at_root_depth nd n v hw hvsub1]
                have hn0s1 : ¬ (nd.append 0) ∈ keysOf s1 := by
                  intro hc
                  exact append0_not_subN_append1 nd n hw ((hkeys1 _).1 hc)
                have h0mem : (nd.append 0) ∈ keysOf s0 :=
                  (hkeys0 _).2 (subN_refl (nd.append 0) n hw0 (by rw [Node.append_len]; omega))
                rw [lookE_of_none _ s1 _ (not_mem_lookupN s1 _ hn0s1), lookupN_insertN_self,
                  lookE_of_some ell ss _ L0 (by rw [hs_left _ h0mem]; exact hlook0)]
              · have hilt : i < nd.len := by omega
                have hvnd : subN nd n v := subN_unsplit nd n 1 v hw hvsub1
                have hund : (v.take i).append 0 ≠ nd := parent_ne_self nd n v i hvnd hbi2 hilt
                have hu0m : ¬ (v.take i).append 0 ∈ keysOf s0 := by
                  intro hc
                  have h5 := ((hkeys0 _).1 hc).2.1
                  rw [takeApp0_len, Node.append_len] at h5
                  omega
                have hkne : nd.append 0 ≠ (v.take i).append 0 := by
                  intro he
                  have h5 : (nd.append 0).len = ((v.take i).append 0).len := by rw [he]
                  rw [Node.append_len, takeApp0_len] at h5
                  omega
                rw [lookE_of_none _ s1 _ (not_mem_lookupN s1 _ hu1m),
                  lookupN_insertN_ne ell (nd.append 0) L0 _ hkne,
                  lookE_of_none ell ss _ (hs_none _ hu0m hu1m hund)]
            · rw [if_neg hvleaf] at hu
              have hvlen : v.len < n := by
                have h5 := hvsub1.2.2.1
                omega
              have humem : u ∈ keysOf s1 := by
                rcases List.mem_cons.1 hu with hu2 | hu2
                · subst hu2
                  exact (hkeys1 _).2
                    (subN_append_child (nd.append 1) n v 0 hvsub1 (by decide) hvlen)
                · have hu3 : u = v.append 1 := by simpa using hu2
                  subst hu3
                  exact (hkeys1 _).2
                    (subN_append_child (nd.append 1) n v 1 hvsub1 (by decide) hvlen)
              exact absurd humem hu1m
      · -- the root entry
        have heq2 := List.mem_singleton.1 hv2
        injection heq2 with hv1e hv2e
        have hv1f : nd = v := hv1e.symm
        subst hv1f
        subst hv2e
        refine ⟨hashH_length _, ?_⟩
        unfold goodEntry
        rw [if_neg hne]
        refine ⟨L0, L1, ?_, ?_, hlab2⟩
        · have h0mem : (nd.append 0) ∈ keysOf s0 :=
            (hkeys0 _).2 (subN_refl (nd.append 0) n hw0 (by rw [Node.append_len]; omega))
          exact lookE_of_some ell ss _ L0 (by rw [hs_left _ h0mem]; exact hlook0)
        · have h1mem : (nd.append 1) ∈ keysOf s1 :=
            (hkeys1 _).2 (subN_refl (nd.append 1) n hw1 (by rw [Node.append_len]; omega))
          exact lookE_of_some ell ss _ L1 (by rw [hs_mid _ h1mem]; exact hlook1)

theorem lookE_nil (s : NMap) (u : Node) : lookE [] s u = lookupN s u := by
  unfold lookE
  cases hl : lookupN s u with
  | none => rfl
  | some l => rfl

/-- Specification of `calc_labels` at the root: it succeeds, emits every
wellformed node of the depth-`n` DAG exactly once, and every emitted label
satisfies its local labeling equation relative to the emitted stream. -/
theorem calc_labels_spec (chi : Bytes) (n : Nat) :
    ∃ L S, calc_labels chi n = some (L, S, []) ∧
      (∀ v, v ∈ keysOf S ↔ (v.bv < 2 ^ v.len ∧ v.len ≤ n)) ∧
      (keysOf S).Nodup ∧
      lookupN S Node.new_zero = some L ∧
      (∀ v lv, (v, lv) ∈ S → lv.length = 32 ∧
        goodEntry chi n (fun u => lookupN S u) v lv) := by
  obtain ⟨L, S, hclh, hkeys, hnodup, hlook, hgood⟩ :=
    clh_main chi n n Node.new_zero []
      (by show (0 : Nat) < 2 ^ 0; decide)
      (by show 0 + n = n; omega)
      (by intro i hi; exact absurd hi (by show ¬ i < 0; omega))
      (by intro k hk; simp [containsN, lookupN] at hk)
  refine ⟨L, S, hclh, ?_, hnodup, hlook, ?_⟩
  · intro v
    rw [hkeys v]
    unfold subN
    show _ ↔ (v.bv < 2 ^ v.len ∧ v.len ≤ n)
    constructor
    · rintro ⟨a, _, c, _⟩
      exact ⟨a, c⟩
    · rintro ⟨a, c⟩
      refine ⟨a, Nat.zero_le _, c, ?_⟩
      show v.bv % 2 ^ 0 = 0
      simp [Nat.pow_zero, Nat.mod_one]
  · intro v lv hv
    obtain ⟨h32, hg⟩ := hgood v lv hv
    refine ⟨h32, goodEntry_congr chi n (lookE [] S) (fun u => lookupN S u) v lv ?_ hg⟩
    intro u _
    exact lookE_nil S u

/-! ## Challenge generation facts -/

theorem revAux_le : ∀ (k g : Nat), revAux k g ≤ 2 ^ k - 1
  | 0, _ => Nat.le_refl _
  | k + 1, g => by
    have h1 : revAux k (g / 2) ≤ 2 ^ k - 1 := revAux_le k (g / 2)
    have h2 : g % 2 ≤ 1 := by omega
    show g % 2 * 2 ^ k + revAux k (g / 2) ≤ 2 ^ (k + 1) - 1
    have h3 : g % 2 * 2 ^ k ≤ 2 ^ k := by
      calc g % 2 * 2 ^ k ≤ 1 * 2 ^ k := Nat.mul_le_mul_right _ h2
      _ = 2 ^ k := Nat.one_mul _
    have h4 : (0:Nat) < 2 ^ k := two_pow_pos k
    have h5 : (2:Nat) ^ (k + 1) = 2 ^ k + 2 ^ k := by rw [Nat.pow_succ]; omega
    omega

theorem revAux_lt_of_low_zero : ∀ (s k g : Nat), s ≤ k → g % 2 ^ s = 0 →
    revAux k g < 2 ^ (k - s)
  | 0, k, g, _, _ => by
    have := revAux_le k g
    have := two_pow_pos k
    show revAux k g < 2 ^ (k - 0)
    rw [Nat.sub_zero]
    omega
  | s + 1, k, g, hsk, hmod => by
    have hk : k = (k - 1) + 1 := by omega
    rw [hk]
    show revAux ((k - 1) + 1) g < 2 ^ ((k - 1) + 1 - (s + 1))
    have hg2 : g % 2 = 0 := by
      have hd : (2:Nat) ∣ 2 ^ (s + 1) := dvd_pow_self 2 (by omega)
      have := Nat.mod_mod_of_dvd g hd
      omega
    have hg3 : (g / 2) % 2 ^ s = 0 := by
      have h6 : g % (2 * 2 ^ s) / 2 = g / 2 % 2 ^ s := Nat.mod_mul_right_div_self g 2 (2 ^ s)
      have h7 : (2:Nat) * 2 ^ s = 2 ^ (s + 1) := by rw [Nat.pow_succ]; ring
      rw [h7] at h6
      rw [← h6, hmod]
    have hrec : revAux (k - 1) (g / 2) < 2 ^ (k - 1 - s) :=
      revAux_lt_of_low_zero s (k - 1) (g / 2) (by omega) hg3
    show g % 2 * 2 ^ (k - 1) + revAux (k - 1) (g / 2) < 2 ^ ((k - 1) + 1 - (s + 1))
    rw [hg2]
    have h8 : (k - 1) + 1 - (s + 1) = k - 1 - s := by omega
    rw [h8]
    omega

theorem gen_gammas_spec (p : Bytes) (d : Nat) (h1 : 1 ≤ d) (h2 : d ≤ 64) :
    ∃ gs, gen_gammas p d = some gs ∧ ∀ g ∈ gs, g.bv < 2 ^ g.len ∧ g.len = d := by
  refine ⟨_, by unfold gen_gammas; rw [if_neg (by omega)], ?_⟩
  intro g hg
  obtain ⟨index, _, hge⟩ := List.mem_map.1 hg
  have hlen : g.len = d := by rw [← hge]; rfl
  refine ⟨?_, hlen⟩
  rw [hlen]
  have hbv : g.bv =
      revAux 64 (leU64val ((bts_key p (gammaKey index)).take 8) / 2 ^ (64 - d) * 2 ^ (64 - d)) := by
    rw [← hge]
    rfl
  rw [hbv]
  have hmod : leU64val ((bts_key p (gammaKey index)).take 8) / 2 ^ (64 - d) * 2 ^ (64 - d)
      % 2 ^ (64 - d) = 0 := Nat.mul_mod_left _ _
  have hres := revAux_lt_of_low_zero (64 - d) 64 _ (by omega) hmod
  have h9 : 64 - (64 - d) = d := by omega
  rw [h9] at hres
  exact hres

theorem mem_gamma_to_path (g : Node) (u : Node) :
    u ∈ gamma_to_path g ↔ ∃ i, i < g.len ∧ u = (g.take i).append (1 - g.get_bit i) := by
  unfold gamma_to_path
  constructor
  · intro h
    obtain ⟨i, hi, hu⟩ := List.mem_map.1 h
    exact ⟨i, List.mem_range.1 hi, hu.symm⟩
  · rintro ⟨i, hi, hu⟩
    exact List.mem_map.2 ⟨i, List.mem_range.2 hi, hu.symm⟩

theorem gamma_to_path_wf (g : Node) (d : Nat) (hw : g.bv < 2 ^ g.len) (hlen : g.len = d)
    (u : Node) (hu : u ∈ gamma_to_path g) : u.bv < 2 ^ u.len ∧ u.len ≤ d := by
  obtain ⟨i, hi, hue⟩ := (mem_gamma_to_path g u).1 hu
  subst hue
  constructor
  · exact Node.append_bv_lt (g.take i) _ (g.take_bv_lt i) (by omega)
  · rw [Node.append_len, Node.take_len]
    omega

/-- The leaf parents of a challenge all lie on its authentication path. -/
theorem parents_sub_path (g : Node) (d : Nat) (hw : g.bv < 2 ^ g.len) (hlen : g.len = d)
    (u : Node) (hu : u ∈ g.get_parents d) : u ∈ gamma_to_path g := by
  obtain ⟨i, hi, hb, hue⟩ := (mem_get_parents_leaf g d hlen u).1 hu
  subst hue
  rw [mem_gamma_to_path]
  refine ⟨i, by omega, ?_⟩
  rw [hb]

/-! ## Fold lemmas for the proof-map construction -/

theorem containsN_insertN_self (m : NMap) (k : Node) (v : Bytes) :
    containsN (insertN m k v) k = true := by
  unfold containsN
  rw [lookupN_insertN_self]
  rfl

theorem keysOf_insertN_mem : ∀ (m : NMap) (k : Node) (v : Bytes), containsN m k = true →
    keysOf (insertN m k v) = keysOf m
  | [], k, v, h => by simp [containsN, lookupN] at h
  | (k0, v0) :: rest, k, v, h => by
    by_cases he : k0 = k
    · subst he
      simp [insertN, keysOf]
    · simp only [insertN, if_neg he, keysOf, List.map_cons, List.cons.injEq, true_and]
      exact keysOf_insertN_mem rest k v (by simpa [containsN, lookupN, if_neg he] using h)

theorem nodup_insertN (m : NMap) (k : Node) (v : Bytes) (h : (keysOf m).Nodup) :
    (keysOf (insertN m k v)).Nodup := by
  by_cases hc : containsN m k = true
  · rw [keysOf_insertN_mem m k v hc]
    exact h
  · have hc2 : containsN m k = false := by
      cases hcc : containsN m k
      · rfl
      · exact absurd hcc hc
    rw [insertN_not_mem m k v hc2, keysOf_append, List.nodup_append]
    refine ⟨h, List.nodup_singleton _, ?_⟩
    intro a ha hb
    have hak : a = k := by simpa [keysOf] using hb
    subst hak
    have hcc := (mem_keysOf_iff m a).1 ha
    rw [hc2] at hcc
    exact Bool.noConfusion hcc

theorem foldl_insert_nodup {α : Type} (step : NMap → α → NMap)
    (hstep : ∀ m a, (keysOf m).Nodup → (keysOf (step m a)).Nodup) :
    ∀ (l : List α) (m : NMap), (keysOf m).Nodup → (keysOf (l.foldl step m)).Nodup
  | [], _, h => h
  | a :: l, m, h => foldl_insert_nodup step hstep l (step m a) (hstep m a h)

theorem contains_path_foldl : ∀ (l : List Node) (m : NMap) (k : Node),
    containsN (l.foldl (fun m2 pn => insertN m2 pn []) m) k = true ↔
      k ∈ l ∨ containsN m k = true
  | [], m, k => by simp
  | p :: l, m, k => by
    simp only [List.foldl_cons, List.mem_cons]
    rw [contains_path_foldl l (insertN m p []) k]
    constructor
    · rintro (h | h)
      · exact Or.inl (Or.inr h)
      · rcases containsN_insertN_elim m p [] k h with he | he
        · exact Or.inl (Or.inl he)
        · exact Or.inr he
    · rintro ((he | he) | he)
      · subst he
        exact Or.inr (containsN_insertN_self m k [])
      · exact Or.inl he
      · exact Or.inr (containsN_insertN_mono m p [] k he)

theorem contains_pm0 : ∀ (gs : List Node) (m : NMap) (k : Node),
    containsN (gs.foldl
      (fun m gamma =>
        insertN ((gamma_to_path gamma).foldl (fun m2 pn => insertN m2 pn []) m) gamma []) m) k
        = true ↔
      (∃ g, g ∈ gs ∧ (k = g ∨ k ∈ gamma_to_path g)) ∨ containsN m k = true
  | [], m, k => by simp
  | g :: gs, m, k => by
    simp only [List.foldl_cons]
    rw [contains_pm0 gs _ k]
    constructor
    · rintro (⟨g2, hg2, hk⟩ | h)
      · exact Or.inl ⟨g2, List.mem_cons_of_mem _ hg2, hk⟩
      · rcases containsN_insertN_elim _ g [] k h with he | he
        · exact Or.inl ⟨g, List.mem_cons_self _ _, Or.inl he⟩
        · rcases (contains_path_foldl _ m k).1 he with hp | hp
          · exact Or.inl ⟨g, List.mem_cons_self _ _, Or.inr hp⟩
          · exact Or.inr hp
    · rintro (⟨g2, hg2, hk⟩ | h)
      · rcases List.mem_cons.1 hg2 with he | he
        · subst he
          rcases hk with hk | hk
          · subst hk
            exact Or.inr (containsN_insertN_self _ k [])
          · exact Or.inr (containsN_insertN_mono _ g2 [] k
              ((contains_path_foldl _ m k).2 (Or.inl hk)))
        · exact Or.inl ⟨g2, he, hk⟩
      · exact Or.inr (containsN_insertN_mono _ g [] k
          ((contains_path_foldl _ m k).2 (Or.inr h)))

/-- How the sink fold of `generate` reads back: a key present in the stream
is overwritten with its streamed label iff it was pre-registered or is the
root; all other keys keep their prior binding. -/
theorem sink_fold_lookup : ∀ (S : NMap) (m : NMap) (k : Node), (keysOf S).Nodup →
    lookupN (S.foldl
      (fun m nl => if (lookupN m nl.1).isSome || nl.1.len == 0 then insertN m nl.1 nl.2 else m)
      m) k =
      (match lookupN S k with
       | some lv => if (lookupN m k).isSome || (k.len == 0) then some lv else lookupN m k
       | none => lookupN m k)
  | [], m, k, _ => rfl
  | (v, lv) :: rest, m, k, hnd => by
    have hnd2 : (keysOf rest).Nodup := (List.nodup_cons.1 hnd).2
    have hvnot : v ∉ keysOf rest := (List.nodup_cons.1 hnd).1
    simp only [List.foldl_cons]
    rw [sink_fold_lookup rest _ k hnd2]
    by_cases hkv : v = k
    · subst hkv
      have hrest : lookupN rest v = none := not_mem_lookupN rest v hvnot
      rw [hrest]
      show lookupN (if (lookupN m v).isSome || (v.len == 0) then insertN m v lv else m) v =
        (match lookupN ((v, lv) :: rest) v with
         | some l2 => if (lookupN m v).isSome || (v.len == 0) then some l2 else lookupN m v
         | none => lookupN m v)
      have hlv : lookupN ((v, lv) :: rest) v = some lv := by simp [lookupN]
      by_cases hcond : ((lookupN m v).isSome || (v.len == 0)) = true
      · simp only [hlv, if_pos hcond]
        exact lookupN_insertN_self m v lv
      · simp only [hlv, if_neg hcond]
    · have hmk : lookupN (if (lookupN m v).isSome || (v.len == 0) then insertN m v lv else m) k =
          lookupN m k := by
        by_cases hcond : ((lookupN m v).isSome || (v.len == 0)) = true
        · rw [if_pos hcond, lookupN_insertN_ne m v lv k hkv]
        · rw [if_neg hcond]
      rw [hmk]
      have hck : lookupN ((v, lv) :: rest) k = lookupN rest k := by
        simp [lookupN, hkv]
      rw [hck]

/-- Structure of the map built by `Proof.generate`: generation succeeds for
every difficulty in `[1, 64]`, every binding of the resulting map agrees
with the labeling stream, and the root, every challenge, and every
authentication-path node are bound to their stream labels. -/
theorem generate_facts (p : Bytes) (d : Nat) (h1 : 1 ≤ d) (h2 : d ≤ 64) :
    ∃ gs S M L,
      gen_gammas p d = some gs ∧
      calc_labels (bts_key p chiKey) d = some (L, S, []) ∧
      (∀ g, g ∈ gs → g.bv < 2 ^ g.len ∧ g.len = d) ∧
      (∀ v, v ∈ keysOf S ↔ (v.bv < 2 ^ v.len ∧ v.len ≤ d)) ∧
      (keysOf S).Nodup ∧
      (∀ v lv, (v, lv) ∈ S → lv.length = 32 ∧
        goodEntry (bts_key p chiKey) d (fun u => lookupN S u) v lv) ∧
      Proof.generate p d = some M ∧
      (keysOf M).Nodup ∧
      (∀ k l, lookupN M k = some l → lookupN S k = some l) ∧
      lookupN M Node.new_zero = some L ∧
      (∀ g, g ∈ gs → ∃ lg, lookupN M g = some lg ∧ lookupN S g = some lg) ∧
      (∀ g, g ∈ gs → ∀ u, u ∈ gamma_to_path g →
        ∃ lu, lookupN M u = some lu ∧ lookupN S u = some lu) := by
  obtain ⟨gs, hgs, hgswf⟩ := gen_gammas_spec p d h1 h2
  obtain ⟨L, S, hcalc, hSkeys, hSnodup, hSroot, hSgood⟩ := calc_labels_spec (bts_key p chiKey) d
  set pm0 := gs.foldl
      (fun m gamma =>
        insertN ((gamma_to_path gamma).foldl (fun m2 pn => insertN m2 pn []) m) gamma [])
      ([] : NMap) with hpm0
  set M := S.foldl
      (fun m nl => if (lookupN m nl.1).isSome || nl.1.len == 0 then insertN m nl.1 nl.2 else m)
      pm0 with hMdef
  have hgen : Proof.generate p d = some M := by
    rw [hMdef, hpm0]
    unfold Proof.generate
    simp only [hgs, hcalc]
  have hpm0wf : ∀ k, containsN pm0 k = true → k.bv < 2 ^ k.len ∧ k.len ≤ d := by
    intro k hk
    rw [hpm0] at hk
    rcases (contains_pm0 gs [] k).1 hk with ⟨g, hgmem, hcase⟩ | hfalse
    · obtain ⟨hgwf, hglen⟩ := hgswf g hgmem
      rcases hcase with he | he
      · subst he
        exact ⟨hgwf, by omega⟩
      · exact gamma_to_path_wf g d hgwf hglen k he
    · simp [containsN, lookupN] at hfalse
  have hmemS : ∀ k, containsN pm0 k = true → ∃ lk, lookupN S k = some lk := by
    intro k hk
    obtain ⟨hkw, hkl⟩ := hpm0wf k hk
    have hks : k ∈ keysOf S := (hSkeys k).2 ⟨hkw, hkl⟩
    exact lookupN_mem_of_contains S k ((mem_keysOf_iff S k).1 hks)
  have hMlook : ∀ k, lookupN M k =
      (match lookupN S k with
       | some lv => if (lookupN pm0 k).isSome || (k.len == 0) then some lv else lookupN pm0 k
       | none => lookupN pm0 k) := by
    intro k
    rw [hMdef]
    exact sink_fold_lookup S pm0 k hSnodup
  have hMS : ∀ k l, lookupN M k = some l → lookupN S k = some l := by
    intro k l hl
    rw [hMlook k] at hl
    cases hS : lookupN S k with
    | some lv =>
      simp only [hS] at hl
      by_cases hcond : ((lookupN pm0 k).isSome || (k.len == 0)) = true
      · rw [if_pos hcond] at hl
        exact hl
      · rw [if_neg hcond] at hl
        have hps : (lookupN pm0 k).isSome = true := by rw [hl]; rfl
        exact absurd (by rw [hps]; rfl :
          ((lookupN pm0 k).isSome || (k.len == 0)) = true) hcond
    | none =>
      simp only [hS] at hl
      have hcont : containsN pm0 k = true := by rw [containsN, hl]; rfl
      obtain ⟨lk, hlk⟩ := hmemS k hcont
      rw [hS] at hlk
      exact Option.noConfusion hlk
  have hMroot : lookupN M Node.new_zero = some L := by
    have hcond : ((lookupN pm0 Node.new_zero).isSome || (Node.new_zero.len == 0)) = true := by
      simp [Node.new_zero]
    rw [hMlook Node.new_zero]
    simp only [hSroot]
    rw [if_pos hcond]
  have hMkey : ∀ k, containsN pm0 k = true →
      ∃ lk, lookupN M k = some lk ∧ lookupN S k = some lk := by
    intro k hk
    obtain ⟨lk, hlk⟩ := hmemS k hk
    refine ⟨lk, ?_, hlk⟩
    have hcond : ((lookupN pm0 k).isSome || (k.len == 0)) = true := by
      rw [containsN] at hk
      rw [hk]
      rfl
    rw [hMlook k]
    simp only [hlk]
    rw [if_pos hcond]
  refine ⟨gs, S, M, L, hgs, hcalc, hgswf, hSkeys, hSnodup, hSgood, hgen, ?_, hMS, hMroot, ?_, ?_⟩
  · rw [hMdef, hpm0]
    apply foldl_insert_nodup _ ?sink S _ ?pm0n
    case sink =>
      intro m a hm
      by_cases hcond : ((lookupN m a.1).isSome || (a.1.len == 0)) = true
      · rw [if_pos hcond]
        exact nodup_insertN m a.1 a.2 hm
      · rw [if_neg hcond]
        exact hm
    case pm0n =>
      apply foldl_insert_nodup _ ?gstep gs [] (by simp [keysOf])
      case gstep =>
        intro m g hm
        apply nodup_insertN
        exact foldl_insert_nodup _ (fun m2 pn hm2 => nodup_insertN m2 pn [] hm2)
          (gamma_to_path g) m hm
  · intro g hg
    apply hMkey g
    rw [hpm0]
    exact (contains_pm0 gs [] g).2 (Or.inl ⟨g, hg, Or.inl rfl⟩)
  · intro g hg u hu
    apply hMkey u
    rw [hpm0]
    exact (contains_pm0 gs [] u).2 (Or.inl ⟨g, hg, Or.inr hu⟩)

theorem range_reverse_succ (k : Nat) :
    (List.range (k + 1)).reverse = k :: (List.range k).reverse := by
  rw [List.range_succ, List.reverse_append]
  simp

/-- The merkle-like fold of the verifier succeeds on a working map whose
bindings agree with the labeling stream and which contains the proof map,
and it preserves both properties: every label it inserts is the true stream
label of the corresponding path prefix. -/
theorem pathFold_ok (chi : Bytes) (d : Nat) (S M : NMap) (g : Node)
    (hSkeys : ∀ v, v ∈ keysOf S ↔ (v.bv < 2 ^ v.len ∧ v.len ≤ d))
    (hSgood : ∀ v lv, (v, lv) ∈ S → lv.length = 32 ∧
      goodEntry chi d (fun u => lookupN S u) v lv)
    (hgwf : g.bv < 2 ^ g.len) (hglen : g.len = d)
    (hMpath : ∀ u, u ∈ gamma_to_path g → containsN M u = true) :
    ∀ (k : Nat) (T : NMap), k ≤ d →
      (∀ u l, lookupN T u = some l → lookupN S u = some l) →
      (∀ u, containsN M u = true → containsN T u = true) →
      containsN T (g.take k) = true →
      ∃ T2, pathFold chi g ((List.range k).reverse) T = some T2 ∧
        (∀ u l, lookupN T2 u = some l → lookupN S u = some l) ∧
        (∀ u, containsN M u = true → containsN T2 u = true)
  | 0, T, _, hTS, hTM, _ => ⟨T, rfl, hTS, hTM⟩
  | k + 1, T, hk, hTS, hTM, hTg => by
    rw [range_reverse_succ]
    have hkd : k < d := by omega
    have hbit2 : g.bv / 2 ^ k % 2 = 0 ∨ g.bv / 2 ^ k % 2 = 1 := by omega
    have hsib : ∀ b, b = 1 - g.get_bit k → containsN T ((g.take k).append b) = true := by
      intro b hb
      apply hTM
      apply hMpath
      rw [mem_gamma_to_path]
      exact ⟨k, by omega, by rw [hb]⟩
    have honpath : containsN T ((g.take k).append (g.bv / 2 ^ k % 2)) = true := by
      rw [Node.take_append_bit g k]
      exact hTg
    have hc0 : containsN T ((g.take k).append 0) = true := by
      rcases hbit2 with hb | hb
      · rw [← hb]
        exact honpath
      · apply hsib
        rw [Node.get_bit_eq, hb]
    have hc1 : containsN T ((g.take k).append 1) = true := by
      rcases hbit2 with hb | hb
      · apply hsib
        rw [Node.get_bit_eq, hb]
      · rw [← hb]
        exact honpath
    obtain ⟨a, ha⟩ := lookupN_mem_of_contains T _ hc0
    obtain ⟨b, hbv⟩ := lookupN_mem_of_contains T _ hc1
    have htkmem : (g.take k) ∈ keysOf S :=
      (hSkeys _).2 ⟨g.take_bv_lt k, by rw [Node.take_len]; omega⟩
    obtain ⟨Lt, hLt⟩ := lookupN_mem_of_contains S _ ((mem_keysOf_iff S _).1 htkmem)
    have hgood := (hSgood _ _ (lookupN_mem S _ _ hLt)).2
    unfold goodEntry at hgood
    rw [if_neg (by rw [Node.take_len]; omega)] at hgood
    obtain ⟨l0, l1, hl0, hl1, hLeq⟩ := hgood
    have hbeta0 : lookupN S ((g.take k).append 0) = some l0 := hl0
    have hbeta1 : lookupN S ((g.take k).append 1) = some l1 := hl1
    have hSa : lookupN S ((g.take k).append 0) = some a := hTS _ _ ha
    have hSb : lookupN S ((g.take k).append 1) = some b := hTS _ _ hbv
    have ha0 : a = l0 := by
      rw [hSa] at hbeta0
      exact Option.some.inj hbeta0
    have hb0 : b = l1 := by
      rw [hSb] at hbeta1
      exact Option.some.inj hbeta1
    have hred : pathFold chi g (k :: (List.range k).reverse) T =
        pathFold chi g ((List.range k).reverse)
          (insertN T (g.take k)
            ((((Accumulator.new chi).add (g.take k).to_bytes).add a).add b).hash) := by
      show (match lookupN T ((g.take k).append 0) with
          | none => none
          | some a2 =>
            match lookupN T ((g.take k).append 1) with
            | none => none
            | some b2 =>
              pathFold chi g ((List.range k).reverse)
                (insertN T (g.take k)
                  ((((Accumulator.new chi).add (g.take k).to_bytes).add a2).add b2).hash)) = _
      simp only [ha, hbv]
    rw [hred]
    refine pathFold_ok chi d S M g hSkeys hSgood hgwf hglen hMpath k _ (by omega) ?_ ?_ ?_
    · intro u l hl
      by_cases hu : g.take k = u
      · rw [← hu] at hl ⊢
        rw [lookupN_insertN_self] at hl
        have hlt2 : l = Lt := by
          rw [ha0, hb0, ← hLeq] at hl
          exact (Option.some.inj hl).symm
        rw [hLt, hlt2]
      · rw [lookupN_insertN_ne T _ _ u hu] at hl
        exact hTS u l hl
    · intro u hu
      exact containsN_insertN_mono T _ _ u (hTM u hu)
    · exact containsN_insertN_self T _ _

/-- One verifier challenge succeeds on a generated proof: the stored leaf
label re-derives from the stored parent labels, and the fold succeeds
preserving the working-map invariants. -/
theorem verifyGamma_ok (chi : Bytes) (d : Nat) (S M : NMap) (phi : Bytes)
    (hSkeys : ∀ v, v ∈ keysOf S ↔ (v.bv < 2 ^ v.len ∧ v.len ≤ d))
    (hSgood : ∀ v lv, (v, lv) ∈ S → lv.length = 32 ∧
      goodEntry chi d (fun u => lookupN S u) v lv)
    (hMroot : lookupN M Node.new_zero = some phi)
    (g : Node) (hgwf : g.bv < 2 ^ g.len) (hglen : g.len = d)
    (hMg : ∃ lg, lookupN M g = some lg ∧ lookupN S g = some lg)
    (hMpath : ∀ u, u ∈ gamma_to_path g → ∃ lu, lookupN M u = some lu ∧ lookupN S u = some lu)
    (T : NMap)
    (hTS : ∀ u l, lookupN T u = some l → lookupN S u = some l)
    (hTM : ∀ u, containsN M u = true → containsN T u = true) :
    ∃ T2, verifyGamma M chi d phi (true, T) g = some (true, T2) ∧
      (∀ u l, lookupN T2 u = some l → lookupN S u = some l) ∧
      (∀ u, containsN M u = true → containsN T2 u = true) := by
  obtain ⟨Lg, hMgl, hSgl⟩ := hMg
  have hgoodg := (hSgood g Lg (lookupN_mem S g Lg hSgl)).2
  unfold goodEntry at hgoodg
  rw [if_pos hglen] at hgoodg
  obtain ⟨labs, hlabs, hLgeq⟩ := hgoodg
  have hparM : ∀ u, u ∈ g.get_parents d → lookupN M u = lookupN S u := by
    intro u hu
    obtain ⟨lu, hMu, hSu⟩ := hMpath u (parents_sub_path g d hgwf hglen u hu)
    rw [hMu, hSu]
  have hlookM : lookAll M (g.get_parents d) = some labs := by
    rw [lookAll_eq_lookAllF,
      lookAllF_congr (fun u => lookupN M u) (fun u => lookupN S u) _ hparM]
    exact hlabs
  have hadd : addParents M ((Accumulator.new chi).add g.to_bytes) (g.get_parents d) =
      (true, accAddList ((Accumulator.new chi).add g.to_bytes) labs) :=
    addParents_of_lookAll M _ _ labs hlookM
  have hTg : containsN T (g.take d) = true := by
    rw [← hglen, Node.take_self g hgwf]
    apply hTM
    rw [containsN, hMgl]
    rfl
  obtain ⟨T2, hpf, hT2S, hT2M⟩ :=
    pathFold_ok chi d S M g hSkeys hSgood hgwf hglen
      (fun u hu => by
        obtain ⟨lu, hMu, _⟩ := hMpath u hu
        rw [containsN, hMu]
        rfl)
      d T (Nat.le_refl d) hTS hTM hTg
  refine ⟨T2, ?_, hT2S, hT2M⟩
  have hhash : ((accAddList ((Accumulator.new chi).add g.to_bytes) labs).hash == Lg) = true := by
    rw [hLgeq]
    simp
  have hphi : (phi == phi) = true := by simp
  unfold verifyGamma
  simp only [hMgl, hadd, hpf, hMroot, hhash, hphi, Bool.and_true, Bool.true_and]

/-- The verifier loop over a list of challenges succeeds on a generated
proof. -/
theorem verifyLoop_ok (chi : Bytes) (d : Nat) (S M : NMap) (phi : Bytes)
    (hSkeys : ∀ v, v ∈ keysOf S ↔ (v.bv < 2 ^ v.len ∧ v.len ≤ d))
    (hSgood : ∀ v lv, (v, lv) ∈ S → lv.length = 32 ∧
      goodEntry chi d (fun u => lookupN S u) v lv)
    (hMroot : lookupN M Node.new_zero = some phi) :
    ∀ (l : List Node) (T : NMap),
      (∀ g, g ∈ l → (g.bv < 2 ^ g.len ∧ g.len = d) ∧
        (∃ lg, lookupN M g = some lg ∧ lookupN S g = some lg) ∧
        (∀ u, u ∈ gamma_to_path g → ∃ lu, lookupN M u = some lu ∧ lookupN S u = some lu)) →
      (∀ u l2, lookupN T u = some l2 → lookupN S u = some l2) →
      (∀ u, containsN M u = true → containsN T u = true) →
      ∃ T2, verifyLoop M chi d phi l (true, T) = some (true, T2)
  | [], T, _, _, _ => ⟨T, rfl⟩
  | g :: gsr, T, hgs, hTS, hTM => by
    obtain ⟨⟨hgw, hgl⟩, hMgx, hMpx⟩ := hgs g (List.mem_cons_self _ _)
    obtain ⟨T2, hvg, hT2S, hT2M⟩ :=
      verifyGamma_ok chi d S M phi hSkeys hSgood hMroot g hgw hgl hMgx hMpx T hTS hTM
    obtain ⟨T3, hrec⟩ := verifyLoop_ok chi d S M phi hSkeys hSgood hMroot gsr T2
      (fun g2 hg2 => hgs g2 (List.mem_cons_of_mem _ hg2)) hT2S hT2M
    refine ⟨T3, ?_⟩
    show (match verifyGamma M chi d phi (true, T) g with
      | none => none
      | some st2 => verifyLoop M chi d phi gsr st2) = some (true, T3)
    simp only [hvg]
    exact hrec

/-- Master completeness statement: for every puzzle and every difficulty
that the checked arithmetic of `gen_gammas` accepts, verifying a freshly
generated proof succeeds. -/
theorem generate_verify_ok (p : Bytes) (d : Nat) (h1 : 1 ≤ d) (h2 : d ≤ 64) :
    (Proof.generate p d).bind (fun pf => Proof.verify pf p d) = some true := by
  obtain ⟨gs, S, M, L, hgs, hcalc, hgswf, hSkeys, hSnodup, hSgood, hgen, hMnodup, hMS,
    hMroot, hMg, hMpath⟩ := generate_facts p d h1 h2
  rw [hgen]
  show Proof.verify M p d = some true
  unfold Proof.verify
  rw [if_neg (by omega : ¬ 100 < d)]
  obtain ⟨T2, hloop⟩ := verifyLoop_ok (bts_key p chiKey) d S M L hSkeys hSgood hMroot gs M
    (fun g hg => ⟨hgswf g hg, hMg g hg, hMpath g hg⟩) hMS (fun u hu => hu)
  simp only [hgs, hMroot, hloop]

/-- Claim C3: for every puzzle and every difficulty in `[1, 16]`, verifying
a freshly generated proof with the same puzzle and difficulty succeeds. -/
theorem C3_generate_verify (p : Bytes) (d : Nat) (h1 : 1 ≤ d) (h2 : d ≤ 16) :
    (Proof.generate p d).bind (fun pf => Proof.verify pf p d) = some true :=
  generate_verify_ok p d h1 (by omega)

/-- Claim C3 witness: the round trip at the concrete puzzle `[]` and
difficulty `1`. -/
theorem C3_generate_verify_witness :
    ((1 : Nat) ≤ 1 ∧ (1 : Nat) ≤ 16) ∧
    (Proof.generate [] 1).bind (fun pf => Proof.verify pf [] 1) = some true :=
  ⟨⟨by decide, by decide⟩, C3_generate_verify [] 1 (by decide) (by decide)⟩

/-- Claim C4 counterexample: `generate` does not panic at difficulty 57 (it
returns a proof), refuting "panics for every difficulty greater than 56". -/
theorem C4_counterexample : (Proof.generate [] 57).isSome = true := by
  obtain ⟨gs, S, M, L, _, _, _, _, _, _, hgen, _⟩ :=
    generate_facts [] 57 (by omega) (by omega)
  rw [hgen]
  rfl

/-- Claim C4 (amended): `generate` panics exactly for difficulty `0` and
difficulties above 64 (the checked shift and subtraction in `gen_gammas`);
for every difficulty in `[1, 64]` — in particular all of `(0, 56]` — it
returns a proof. -/
theorem C4_generate_none_iff (p : Bytes) (d : Nat) :
    Proof.generate p d = none ↔ (d = 0 ∨ 64 < d) := by
  constructor
  · intro hnone
    by_contra hcon
    push_neg at hcon
    obtain ⟨hd0, hd64⟩ := hcon
    obtain ⟨gs, S, M, L, _, _, _, _, _, _, hgen, _⟩ :=
      generate_facts p d (by omega) (by omega)
    rw [hgen] at hnone
    exact Option.noConfusion hnone
  · intro hd
    have hgg : gen_gammas p d = none := by
      unfold gen_gammas
      rw [if_pos hd]
    unfold Proof.generate
    rw [hgg]

/-- `to_bytes` succeeds whenever every stored label is 32 bytes. -/
theorem to_bytes_isSome : ∀ (m : NMap), (∀ kv, kv ∈ m → kv.2.length = 32) →
    (Proof.to_bytes m).isSome = true
  | [], _ => rfl
  | (k, v) :: rest, h => by
    have hv : v.length = 32 := h (k, v) (List.mem_cons_self _ _)
    have hr := to_bytes_isSome rest (fun kv hkv => h kv (List.mem_cons_of_mem _ hkv))
    show (if v.length = 32 then
        (match Proof.to_bytes rest with
         | none => none
         | some tl => some (k.to_bytes ++ v ++ tl))
      else none).isSome = true
    rw [if_pos hv]
    cases ht : Proof.to_bytes rest with
    | none =>
      simp [ht] at hr
    | some tl => rfl

/-- Claim C10: every label stored by `generate` at a difficulty in `[1, 56]`
is exactly 32 bytes — every placeholder is overwritten by the labeling pass
— and consequently `to_bytes` never fails its assert on a generated
proof. -/
theorem C10_generated_labels (p : Bytes) (d : Nat) (h1 : 1 ≤ d) (h2 : d ≤ 56) :
    (Proof.generate p d).elim false
      (fun pf => pf.all (fun kv => kv.2.length == 32) && (Proof.to_bytes pf).isSome) = true := by
  obtain ⟨gs, S, M, L, hgs, hcalc, hgswf, hSkeys, hSnodup, hSgood, hgen, hMnodup, hMS,
    hMroot, hMg, hMpath⟩ := generate_facts p d h1 (by omega)
  rw [hgen]
  show (M.all (fun kv => kv.2.length == 32) && (Proof.to_bytes M).isSome) = true
  have h32 : ∀ kv, kv ∈ M → kv.2.length = 32 := by
    intro kv hkv
    obtain ⟨k, v⟩ := kv
    have hlk : lookupN M k = some v := mem_lookupN M k v hMnodup hkv
    have hlS : lookupN S k = some v := hMS k v hlk
    exact (hSgood k v (lookupN_mem S k v hlS)).1
  have hall : M.all (fun kv => kv.2.length == 32) = true := by
    rw [List.all_eq_true]
    intro kv hkv
    simp [h32 kv hkv]
  rw [hall, to_bytes_isSome M h32]
  rfl

/-- Claim C10 witness: the statement evaluated at puzzle `[]` and
difficulty `1`. -/
theorem C10_generated_labels_witness :
    ((1 : Nat) ≤ 1 ∧ (1 : Nat) ≤ 56) ∧
    (Proof.generate [] 1).elim false
      (fun pf => pf.all (fun kv => kv.2.length == 32) && (Proof.to_bytes pf).isSome) = true :=
  ⟨⟨by decide, by decide⟩, C10_generated_labels [] 1 (by decide) (by decide)⟩

/-! ## The memory invariant of the labeler (claim C8) -/

theorem ctxKeys_mem (nd : Node) (u : Node) :
    u ∈ ctxKeys nd ↔ ∃ i, i < nd.len ∧ nd.bv / 2 ^ i % 2 = 1 ∧ u = (nd.take i).append 0 := by
  unfold ctxKeys
  constructor
  · intro h
    obtain ⟨i, hi, hu⟩ := List.mem_map.1 h
    obtain ⟨hir, hib⟩ := List.mem_filter.1 hi
    exact ⟨i, List.mem_range.1 hir, by simpa using hib, hu.symm⟩
  · rintro ⟨i, hi, hb, hu⟩
    exact List.mem_map.2 ⟨i, List.mem_filter.2 ⟨List.mem_range.2 hi, by simpa using hb⟩, hu.symm⟩

theorem ctxKeys_append0 (nd : Node) (hw : nd.bv < 2 ^ nd.len) :
    ctxKeys (nd.append 0) = ctxKeys nd := by
  unfold ctxKeys
  rw [Node.append_len, List.range_succ, List.filter_append]
  have hbitlen : ((nd.append 0).bv / 2 ^ nd.len % 2 = 1) = False := by
    rw [Node.append_bit nd 0 nd.len hw (by decide), if_neg (by omega), if_pos rfl]
    simp
  have hlast : [nd.len].filter (fun i => (nd.append 0).bv / 2 ^ i % 2 = 1) = [] := by
    simp [List.filter, hbitlen]
  rw [hlast, List.append_nil]
  have hfc : (List.range nd.len).filter (fun i => (nd.append 0).bv / 2 ^ i % 2 = 1) =
      (List.range nd.len).filter (fun i => nd.bv / 2 ^ i % 2 = 1) := by
    apply List.filter_congr
    intro i hi
    rw [Node.append_bit nd 0 i hw (by decide), if_pos (List.mem_range.1 hi)]
  rw [hfc]
  apply List.map_congr_left
  intro i hi
  obtain ⟨hir, _⟩ := List.mem_filter.1 hi
  rw [Node.take_of_append nd 0 i hw (Nat.le_of_lt (List.mem_range.1 hir))]

theorem ctxKeys_append1 (nd : Node) (hw : nd.bv < 2 ^ nd.len) :
    ctxKeys (nd.append 1) = ctxKeys nd ++ [nd.append 0] := by
  unfold ctxKeys
  rw [Node.append_len, List.range_succ, List.filter_append]
  have hbitlen : ((nd.append 1).bv / 2 ^ nd.len % 2 = 1) = True := by
    rw [Node.append_bit nd 1 nd.len hw (by decide), if_neg (by omega), if_pos rfl]
    simp
  have hlast : [nd.len].filter (fun i => (nd.append 1).bv / 2 ^ i % 2 = 1) = [nd.len] := by
    simp [List.filter, hbitlen]
  rw [hlast]
  have hfc : (List.range nd.len).filter (fun i => (nd.append 1).bv / 2 ^ i % 2 = 1) =
      (List.range nd.len).filter (fun i => nd.bv / 2 ^ i % 2 = 1) := by
    apply List.filter_congr
    intro i hi
    rw [Node.append_bit nd 1 i hw (by decide), if_pos (List.mem_range.1 hi)]
  rw [hfc, List.map_append]
  congr 1
  · apply List.map_congr_left
    intro i hi
    obtain ⟨hir, _⟩ := List.mem_filter.1 hi
    rw [Node.take_of_append nd 1 i hw (Nat.le_of_lt (List.mem_range.1 hir))]
  · show [((nd.append 1).take nd.len).append 0] = [nd.append 0]
    rw [Node.take_of_append nd 1 nd.len hw (Nat.le_refl _), Node.take_self nd hw]

/-- Claim C8: if the auxiliary map `ell` holds exactly the pinned
left-sibling keys of the current node (the spec's memory invariant), then
the traversal of the subtree completes without any failed `ell` lookup and
restores `ell`; the invariant carries over exactly to both recursive calls
(same `ell` for the left child, `ell` plus the pinned key `nd.append 0` for
the right child), and `ell` never holds more than `n` entries. -/
theorem C8_ell_invariant (chi : Bytes) (n fuel : Nat) (nd : Node) (ell : NMap)
    (hw : nd.bv < 2 ^ nd.len) (hfuel : nd.len + fuel = n)
    (hex : (keysOf ell).Perm (ctxKeys nd)) :
    ((clh chi n fuel nd ell).map (fun r => r.2.2) = some ell) ∧
    ell.length ≤ n ∧
    (keysOf ell).Perm (ctxKeys (nd.append 0)) ∧
    ((nd.append 0) :: keysOf ell).Perm (ctxKeys (nd.append 1)) := by
  have h3 : ∀ i, i < nd.len → nd.bv / 2 ^ i % 2 = 1 →
      containsN ell ((nd.take i).append 0) = true := by
    intro i hi hb
    rw [← mem_keysOf_iff]
    exact hex.mem_iff.2 ((ctxKeys_mem nd _).2 ⟨i, hi, hb, rfl⟩)
  have h4 : ∀ k, containsN ell k = true → k.len ≤ nd.len := by
    intro k hk
    have hm : k ∈ ctxKeys nd := hex.mem_iff.1 ((mem_keysOf_iff ell k).2 hk)
    obtain ⟨i, hi, _, hke⟩ := (ctxKeys_mem nd k).1 hm
    rw [hke, takeApp0_len]
    omega
  obtain ⟨L, s, hclh, _, _, _, _⟩ := clh_main chi n fuel nd ell hw hfuel h3 h4
  refine ⟨by rw [hclh]; rfl, ?_, ?_, ?_⟩
  · have hlen1 : ell.length = (keysOf ell).length := (List.length_map _ _).symm
    have hlen2 := hex.length_eq
    have hlen3 : (ctxKeys nd).length ≤ nd.len := by
      unfold ctxKeys
      rw [List.length_map]
      calc ((List.range nd.len).filter _).length ≤ (List.range nd.len).length :=
        List.length_filter_le _ _
      _ = nd.len := List.length_range _
    omega
  · rw [ctxKeys_append0 nd hw]
    exact hex
  · rw [ctxKeys_append1 nd hw]
    exact (List.Perm.cons (nd.append 0) hex).trans
      (@List.perm_append_comm _ [nd.append 0] (ctxKeys nd))

/-- Claim C8 witness: the invariant at the concrete node `1` of a depth-2
DAG, with `ell` pinning exactly the left sibling `0`. -/
theorem C8_ell_invariant_witness :
    ((Node.new 1 1).bv < 2 ^ (Node.new 1 1).len ∧ (Node.new 1 1).len + 1 = 2 ∧
      (keysOf [(Node.new 0 1, List.replicate 32 0)]).Perm (ctxKeys (Node.new 1 1))) ∧
    ((clh [] 2 1 (Node.new 1 1) [(Node.new 0 1, List.replicate 32 0)]).map (fun r => r.2.2) =
        some [(Node.new 0 1, List.replicate 32 0)] ∧
      ([(Node.new 0 1, List.replicate 32 0)] : NMap).length ≤ 2 ∧
      (keysOf [(Node.new 0 1, List.replicate 32 0)]).Perm (ctxKeys ((Node.new 1 1).append 0)) ∧
      (((Node.new 1 1).append 0) :: keysOf [(Node.new 0 1, List.replicate 32 0)]).Perm
        (ctxKeys ((Node.new 1 1).append 1))) :=
  ⟨⟨by decide, by decide, by decide⟩,
    C8_ell_invariant [] 2 1 (Node.new 1 1) [(Node.new 0 1, List.replicate 32 0)]
      (by decide) (by decide) (by decide)⟩

/-! ## Proof codec roundtrip (claim C6) -/

theorem to_bytes_some : ∀ (m : NMap), (∀ kv, kv ∈ m → kv.2.length = 32) →
    ∃ bs, Proof.to_bytes m = some bs ∧ bs.length = 40 * m.length
  | [], _ => ⟨[], rfl, rfl⟩
  | (k, v) :: rest, h => by
    obtain ⟨tl, htl, hlen⟩ := to_bytes_some rest (fun kv hkv => h kv (List.mem_cons_of_mem _ hkv))
    have hv : v.length = 32 := h (k, v) (List.mem_cons_self _ _)
    refine ⟨k.to_bytes ++ v ++ tl, ?_, ?_⟩
    · show (if v.length = 32 then
          (match Proof.to_bytes rest with
           | none => none
           | some tl2 => some (k.to_bytes ++ v ++ tl2))
        else none) = some (k.to_bytes ++ v ++ tl)
      rw [if_pos hv]
      simp only [htl]
    · simp only [List.length_append, beBytes8_length, hv, hlen, List.length_cons]
      show 8 + 32 + 40 * rest.length = 40 * (rest.length + 1)
      omega

theorem fromBytesLoop_ne_nil (fuel : Nat) (bs : Bytes) (acc : NMap) (h : bs ≠ []) :
    fromBytesLoop (fuel + 1) bs acc =
      (match Node.from_bytes (bs.take 8) with
       | none => none
       | some nd => fromBytesLoop fuel (bs.drop 40) (insertN acc nd ((bs.drop 8).take 32))) := by
  cases bs with
  | nil => exact absurd rfl h
  | cons b rest => rfl

theorem to_bytes_parse : ∀ (m : NMap) (acc : NMap) (fuel : Nat) (bs : Bytes),
    Proof.to_bytes m = some bs →
    (∀ kv, kv ∈ m → kv.1.len ≤ 56 ∧ kv.1.bv < 2 ^ kv.1.len ∧ kv.2.length = 32) →
    (keysOf m).Nodup →
    (∀ k, k ∈ keysOf m → containsN acc k = false) →
    bs.length ≤ 40 * fuel →
    fromBytesLoop fuel bs acc = some (acc ++ m)
  | [], acc, fuel, bs, hb, _, _, _, _ => by
    have hbs : bs = [] := by
      have : some ([] : Bytes) = some bs := hb
      exact (Option.some.inj this).symm
    subst hbs
    cases fuel with
    | zero => show some acc = some (acc ++ []); rw [List.append_nil]
    | succ f => show some acc = some (acc ++ []); rw [List.append_nil]
  | (k, v) :: rest, acc, fuel, bs, hb, hwf, hnd, hfresh, hfuel => by
    obtain ⟨hk56, hkwf, hv32⟩ := hwf (k, v) (List.mem_cons_self _ _)
    have hb2 : (if v.length = 32 then
        (match Proof.to_bytes rest with
         | none => none
         | some tl2 => some (k.to_bytes ++ v ++ tl2))
      else none) = some bs := hb
    rw [if_pos hv32] at hb2
    cases htl : Proof.to_bytes rest with
    | none =>
      rw [htl] at hb2
      exact absurd hb2 (by simp)
    | some tl =>
      rw [htl] at hb2
      have hbs : bs = k.to_bytes ++ v ++ tl := (Option.some.inj hb2).symm
      subst hbs
      have hlenbs : (k.to_bytes ++ v ++ tl).length = 40 + tl.length := by
        simp only [List.length_append, beBytes8_length, hv32]
        show 8 + 32 + tl.length = 40 + tl.length
        omega
      cases fuel with
      | zero =>
        rw [hlenbs] at hfuel
        omega
      | succ f =>
        have hne : k.to_bytes ++ v ++ tl ≠ [] := by
          intro hnil
          rw [hnil] at hlenbs
          simp at hlenbs
          omega
        rw [fromBytesLoop_ne_nil f _ acc hne]
        have htake8 : (k.to_bytes ++ v ++ tl).take 8 = k.to_bytes := by
          rw [List.append_assoc, ← beBytes8_length k.uniqid]
          exact List.take_left _ _
        have hdrop8 : (k.to_bytes ++ v ++ tl).drop 8 = v ++ tl := by
          rw [List.append_assoc, ← beBytes8_length k.uniqid]
          exact List.drop_left _ _
        have htake32 : (v ++ tl).take 32 = v := by
          rw [← hv32]
          exact List.take_left _ _
        have hdrop40 : (k.to_bytes ++ v ++ tl).drop 40 = tl := by
          have h1 : ((k.to_bytes ++ v ++ tl).drop 8).drop 32 = tl := by
            rw [hdrop8, ← hv32]
            exact List.drop_left _ _
          rw [List.drop_drop] at h1
          norm_num at h1
          exact h1
        have hparse : Node.from_bytes ((k.to_bytes ++ v ++ tl).take 8) = some k := by
          rw [htake8]
          exact C5_node_roundtrip k hk56 hkwf
        simp only [hparse, hdrop8, htake32, hdrop40]
        have hacc : containsN acc k = false := hfresh k (by simp [keysOf])
        rw [insertN_not_mem acc k v hacc]
        have hrec := to_bytes_parse rest (acc ++ [(k, v)]) f tl htl
          (fun kv hkv => hwf kv (List.mem_cons_of_mem _ hkv))
          ((List.nodup_cons.1 hnd).2)
          ?fresh2
          (by rw [hlenbs] at hfuel; omega)
        case fresh2 =>
          intro k2 hk2
          have hk2k : k ≠ k2 := by
            intro he
            subst he
            exact (List.nodup_cons.1 hnd).1 hk2
          have ha2 : lookupN acc k2 = none := by
            have := hfresh k2 (by simp [keysOf]; exact Or.inr (by simpa [keysOf] using hk2))
            unfold containsN at this
            cases hl : lookupN acc k2 with
            | none => rfl
            | some lv => rw [hl] at this; exact Bool.noConfusion this
          unfold containsN
          rw [lookupN_append_of_none acc _ k2 ha2]
          simp [lookupN, hk2k]
        rw [hrec, List.append_assoc]
        rfl

/-- Claim C6: serializing a proof map whose keys satisfy the spec's node
invariant and whose labels are 32 bytes, then deserializing, returns the
same proof (in particular the same map). -/
theorem C6_proof_roundtrip (m : NMap)
    (hnd : (keysOf m).Nodup)
    (hwf : ∀ kv, kv ∈ m → kv.1.len ≤ 56 ∧ kv.1.bv < 2 ^ kv.1.len ∧ kv.2.length = 32) :
    (Proof.to_bytes m).bind Proof.from_bytes = some m := by
  obtain ⟨bs, hbs, hlen⟩ := to_bytes_some m (fun kv hkv => (hwf kv hkv).2.2)
  rw [hbs]
  show Proof.from_bytes bs = some m
  unfold Proof.from_bytes
  rw [if_neg (by rw [hlen]; omega : ¬ bs.length % 40 ≠ 0)]
  have hp := to_bytes_parse m [] bs.length bs hbs hwf hnd
    (fun k _ => rfl) (by omega)
  simpa using hp

/-- Claim C6 witness: the roundtrip on a concrete one-entry proof map. -/
theorem C6_proof_roundtrip_witness :
    ((keysOf [(Node.new 5 3, List.replicate 32 7)]).Nodup ∧
      (∀ kv, kv ∈ ([(Node.new 5 3, List.replicate 32 7)] : NMap) →
        kv.1.len ≤ 56 ∧ kv.1.bv < 2 ^ kv.1.len ∧ kv.2.length = 32)) ∧
    (Proof.to_bytes [(Node.new 5 3, List.replicate 32 7)]).bind Proof.from_bytes =
      some [(Node.new 5 3, List.replicate 32 7)] :=
  ⟨⟨by decide, by decide⟩, C6_proof_roundtrip _ (by decide) (by decide)⟩

/-! ## Concrete verifier evaluations (claims C1 and C2) -/

/-- The seed `chi` for the empty puzzle. -/
def chi1 : Bytes := bts_key [] chiKey

/-- The correct label of leaf `0` at difficulty 1 (no parents: `bv = 0`). -/
def Lab0 : Bytes := ((Accumulator.new chi1).add (Node.new 0 1).to_bytes).hash

/-- The correct label of leaf `1` at difficulty 1 (one parent, leaf `0`). -/
def Lab1 : Bytes :=
  (((Accumulator.new chi1).add (Node.new 1 1).to_bytes).add Lab0).hash

/-- A forged proof for the empty puzzle at difficulty 1: both leaf labels are
honest, but the root label is 32 zero bytes instead of the hash of the
children. -/
def Pstar : NMap :=
  [(Node.new_zero, List.replicate 32 0), (Node.new 0 1, Lab0), (Node.new 1 1, Lab1)]

set_option maxRecDepth 100000 in
/-- Claim C1: refuted on `Pstar`.  The verifier accepts `Pstar` even though
the root label recomputed by the fold (the value the fold stores at `ε` in
the working map) differs from the root label `φ = Pstar[ε]`: the code's
post-fold comparison reads the original map `self.0[ε]`, which is `φ` itself,
so the required check `T[ε] = φ` is never performed. -/
theorem C1_root_check_bypassed :
    Proof.verify Pstar [] 1 = some true ∧
    (((pathFold chi1 (Node.new 1 1) ((List.range 1).reverse) Pstar).bind
        (fun t => lookupN t Node.new_zero)) == some (List.replicate 32 0)) = false := by
  constructor
  · decide
  · decide

set_option maxRecDepth 100000 in
/-- Claim C2: refuted on the empty proof map.  `verify` indexes
`self.0[ε]`, which panics when the root is absent (modelled as `none`)
instead of returning `false`. -/
theorem C2_verify_root_panic : Proof.verify [] [] 1 = none := by
  decide
